import Mathlib

set_option autoImplicit false
set_option linter.unusedVariables false

namespace DorisVerify

/-!
Shallow embedding of the Doris backend fragments under verification:
the hash-map cell layer and map facade of
`be/src/vec/common/hash_table/hash_map.h`, and the match-predicate
evaluator of `be/src/olap/match_predicate.cpp`.

The generic `HashTable` core (`hash_table.h`) is not part of the shown
sources; where the facade depends on it (emplace / find / iteration /
resize) the core is modelled from the specification, as indicated in the
doc comments of the corresponding definitions.

Possibly-uninitialized C++ storage is modelled by `Option`: `none` stands
for a component whose bytes were never constructed or assigned.
-/

/-! ### Cell layer, embedded from `hash_map.h` -/

/-- Tag type requesting that the second pair component stay uninitialized
(embeds `struct NoInitTag`). -/
structure NoInitTag where

/-- Embeds `PairNoInit<First, Second>`. The C++ struct may leave `second`
uninitialized, so the mapped component is modelled as an `Option`, where
`none` stands for uninitialized storage. -/
structure PairNoInit (First Second : Type) where
  first : First
  second : Option Second

/-- Embeds the constructor `PairNoInit(First_&& first_, NoInitTag)`: it
initializes `first` and leaves `second` uninitialized. -/
def PairNoInit.ofFirst {First Second : Type} (first_ : First) (_tag : NoInitTag) :
    PairNoInit First Second :=
  ⟨first_, none⟩

/-- Embeds the constructor `PairNoInit(First_&& first_, Second_&& second_)`. -/
def PairNoInit.ofBoth {First Second : Type} (first_ : First) (second_ : Second) :
    PairNoInit First Second :=
  ⟨first_, some second_⟩

/-- Embeds `HashMapCell<Key, Mapped, Hash>`; the hash function is passed
explicitly to the operations that need it. -/
structure HashMapCell (Key Mapped : Type) where
  value : PairNoInit Key Mapped

namespace HashMapCell

variable {Key Mapped : Type}

/-- Embeds `HashMapCell(const Key& key_, const State&)`: builds the pair with
`NoInitTag`, so the mapped component stays uninitialized. -/
def ofKey (key_ : Key) : HashMapCell Key Mapped :=
  ⟨PairNoInit.ofFirst key_ ⟨⟩⟩

/-- Embeds `HashMapCell(const Key& key_, const Mapped& mapped_)`. -/
def ofKeyMapped (key_ : Key) (mapped_ : Mapped) : HashMapCell Key Mapped :=
  ⟨PairNoInit.ofBoth key_ mapped_⟩

/-- Embeds `const Key& get_first() const`. -/
def get_first (c : HashMapCell Key Mapped) : Key := c.value.first

/-- Embeds `Mapped& get_second()`; reading uninitialized storage yields `none`. -/
def get_second (c : HashMapCell Key Mapped) : Option Mapped := c.value.second

/-- Embeds `bool key_equals(const Key& key_) const`. -/
def key_equals [DecidableEq Key] (c : HashMapCell Key Mapped) (key_ : Key) : Bool :=
  decide (c.value.first = key_)

/-- Embeds `bool key_equals(const Key& key_, size_t hash_) const`: the plain
cell ignores the hash argument and compares keys. -/
def key_equals_hash [DecidableEq Key] (c : HashMapCell Key Mapped) (key_ : Key)
    (hash_ : Nat) : Bool :=
  decide (c.value.first = key_)

/-- Embeds the overload `key_equals(const Key&, size_t, const State&)`. -/
def key_equals_hash_state [DecidableEq Key] (c : HashMapCell Key Mapped) (key_ : Key)
    (hash_ : Nat) : Bool :=
  decide (c.value.first = key_)

/-- Embeds `void set_hash(size_t)`: a no-op for the plain cell. -/
def set_hash (c : HashMapCell Key Mapped) (hash_value : Nat) : HashMapCell Key Mapped := c

/-- Embeds `size_t get_hash(const Hash& hash) const`: recomputes `hash(key)`. -/
def get_hash (c : HashMapCell Key Mapped) (hash : Key → Nat) : Nat :=
  hash c.value.first

/-- Embeds `is_zero` via `ZeroTraits::check`: the zero bit pattern of the key
marks an empty cell. -/
def is_zero [Zero Key] [DecidableEq Key] (c : HashMapCell Key Mapped) : Bool :=
  decide (c.value.first = 0)

/-- Embeds `set_zero` via `ZeroTraits::set`. -/
def set_zero [Zero Key] (c : HashMapCell Key Mapped) : HashMapCell Key Mapped :=
  ⟨⟨0, c.value.second⟩⟩

/-- Embeds `static constexpr bool need_zero_value_storage = true`. -/
def need_zero_value_storage : Bool := true

/-- Embeds `void set_mapped(const value_type& value_)`, whose body is
`value.second = value_.second`. -/
def set_mapped (c : HashMapCell Key Mapped) (value_ : PairNoInit Key Mapped) :
    HashMapCell Key Mapped :=
  ⟨⟨c.value.first, value_.second⟩⟩

end HashMapCell

/-- Embeds `HashMapCellWithSavedHash<Key, Mapped, Hash>`: a `HashMapCell`
extended with the cached hash field `saved_hash`. -/
structure HashMapCellWithSavedHash (Key Mapped : Type) where
  value : PairNoInit Key Mapped
  saved_hash : Nat

namespace HashMapCellWithSavedHash

variable {Key Mapped : Type}

/-- Embeds `bool key_equals(const Key& key_) const` of the saved-hash cell. -/
def key_equals [DecidableEq Key] (c : HashMapCellWithSavedHash Key Mapped)
    (key_ : Key) : Bool :=
  decide (c.value.first = key_)

/-- Embeds `bool key_equals(const Key& key_, size_t hash_) const` of the
saved-hash cell: `saved_hash == hash_ && value.first == key_`. -/
def key_equals_hash [DecidableEq Key] (c : HashMapCellWithSavedHash Key Mapped)
    (key_ : Key) (hash_ : Nat) : Bool :=
  decide (c.saved_hash = hash_) && decide (c.value.first = key_)

/-- Embeds the overload `key_equals(const Key&, size_t, const State&)`, which
delegates to the two-argument overload. -/
def key_equals_hash_state [DecidableEq Key] (c : HashMapCellWithSavedHash Key Mapped)
    (key_ : Key) (hash_ : Nat) : Bool :=
  key_equals_hash c key_ hash_

/-- Embeds `void set_hash(size_t hash_value)`: stores the hash in the cell. -/
def set_hash (c : HashMapCellWithSavedHash Key Mapped) (hash_value : Nat) :
    HashMapCellWithSavedHash Key Mapped :=
  { c with saved_hash := hash_value }

/-- Embeds `size_t get_hash(const Hash&) const`: returns the stored hash and
ignores the hash function. -/
def get_hash (c : HashMapCellWithSavedHash Key Mapped) (hash : Key → Nat) : Nat :=
  c.saved_hash

end HashMapCellWithSavedHash

/-! ### Match predicate, embedded from `match_predicate.cpp` -/

/-- Embeds `enum MatchType` as used by `MatchPredicate`. -/
inductive MatchType where
  | MATCH_ANY
  | MATCH_ALL
  | MATCH_PHRASE
  | MATCH_PHRASE_PREFIX
  | MATCH_REGEXP
  | MATCH_PHRASE_EDGE
deriving DecidableEq

/-- Embeds `enum InvertedIndexQueryType` (the cases reached from
`MatchPredicate::_to_inverted_index_query_type`). -/
inductive InvertedIndexQueryType where
  | UNKNOWN_QUERY
  | MATCH_ANY_QUERY
  | MATCH_ALL_QUERY
  | MATCH_PHRASE_QUERY
  | MATCH_PHRASE_PREFIX_QUERY
  | MATCH_REGEXP_QUERY
  | MATCH_PHRASE_EDGE_QUERY
deriving DecidableEq

/-- Embeds `Status`: either `Status::OK()` or an error with a message. -/
inductive Status where
  | OK
  | Error (msg : String)
deriving DecidableEq

/-- Classifies the column type of the evaluated field, deciding which branch
of `MatchPredicate::evaluate` runs: a string column (or array of strings), an
array of numerics, or anything else. -/
inductive ColumnKind where
  | StringLike
  | ArrayNumeric
  | Other
deriving DecidableEq

/-- Abstract model of the external `InvertedIndexIterator` collaborator: the
fields record the answers the external index reader would give to the calls
`evaluate` makes on it. -/
structure InvertedIndexIterator where
  reader_type_fulltext : Bool
  phrase_support_no : Bool
  has_null : Bool
  read_result : Except String (Finset Nat)
  parse_ok : Bool
  null_bitmap_result : Except String (Option (Finset Nat))

/-- Embeds `MatchPredicate` (fields `_column_id`, `_value`, `_match_type`). -/
structure MatchPredicate where
  column_id : Nat
  value : String
  match_type : MatchType

namespace MatchPredicate

/-- Embeds `MatchPredicate::type()`, which returns `PredicateType::MATCH`;
modelled as the tag string of that enumerator. -/
def type (p : MatchPredicate) : String := "MATCH"

/-- Embeds `MatchPredicate::_to_inverted_index_query_type`. -/
def to_inverted_index_query_type (p : MatchPredicate) (match_type : MatchType) :
    InvertedIndexQueryType :=
  match match_type with
  | .MATCH_ANY => .MATCH_ANY_QUERY
  | .MATCH_ALL => .MATCH_ALL_QUERY
  | .MATCH_PHRASE => .MATCH_PHRASE_QUERY
  | .MATCH_PHRASE_PREFIX => .MATCH_PHRASE_PREFIX_QUERY
  | .MATCH_REGEXP => .MATCH_REGEXP_QUERY
  | .MATCH_PHRASE_EDGE => .MATCH_PHRASE_EDGE_QUERY

/-- Embeds `MatchPredicate::_check_evaluate`: true when a phrase-like match
runs against a fulltext reader whose parser has phrase support disabled. -/
def check_evaluate (p : MatchPredicate) (iterator : InvertedIndexIterator) : Bool :=
  (decide (p.match_type = .MATCH_PHRASE) || decide (p.match_type = .MATCH_PHRASE_PREFIX) ||
      decide (p.match_type = .MATCH_PHRASE_EDGE)) &&
    iterator.reader_type_fulltext && iterator.phrase_support_no

/-- Embeds `MatchPredicate::evaluate`. A `none` iterator embeds the C++
`nullptr` check; bitmaps are modelled as finite sets of row ids, with
`&=` as intersection and `-=` as set difference. External reader calls are
answered by the oracle fields of the iterator model. -/
def evaluate (p : MatchPredicate) (column : ColumnKind)
    (iterator : Option InvertedIndexIterator) (num_rows : Nat)
    (bitmap : Finset Nat) : Status × Finset Nat :=
  match iterator with
  | none => (Status.OK, bitmap)
  | some it =>
    if p.check_evaluate it then
      (Status.Error "phrase queries require setting support_phrase = true", bitmap)
    else
      match (match column with
             | .StringLike => it.read_result
             | .ArrayNumeric =>
               if it.parse_ok then it.read_result else Except.error "from_string failed"
             | .Other => Except.ok ∅) with
      | .error e => (Status.Error e, bitmap)
      | .ok roaring =>
        match (if it.has_null then it.null_bitmap_result else Except.ok none) with
        | .error e => (Status.Error e, bitmap)
        | .ok null_bitmap =>
          let bitmap1 :=
            match null_bitmap with
            | some nb => bitmap \ nb
            | none => bitmap
          (Status.OK, bitmap1 ∩ roaring)

end MatchPredicate

/-! ### HashMap table

`HashMapTable` specializes the generic table with `HashMapCell` over `Nat`
keys (a fixed-width integer key whose all-zero bit pattern is the empty
sentinel). The facade members (`operator[]`, `for_each_mapped`,
`get_null_key_data`, `has_null_key_data`) are embedded from `hash_map.h`;
the underlying `HashTable` core (`emplace`, `find`, iteration, resize) is
not among the shown sources and is modelled from the specification. -/

/-- State of a hash map. Modelled from the spec: the `HashTable` core holds a
power-of-two bucket array (`buf`, capacity `2 ^ size_log`, emptiness marked
by a zero key), an occupancy count, and a single dedicated slot for the zero
sentinel key outside the main array. The hash function is the table's
compile-time `Hash` policy. -/
structure HashMapTable (M : Type) where
  hash : Nat → Nat
  size_log : Nat
  buf : Nat → HashMapCell Nat M
  m_size : Nat
  has_zero : Bool
  zero_cell : HashMapCell Nat M

/-- A bucket-array cell in its initial allocator-zeroed state: zero key,
uninitialized mapped component. -/
def emptyCell {M : Type} : HashMapCell Nat M := ⟨⟨0, none⟩⟩

namespace HashMapTable

variable {M : Type}

/-- Bucket-array capacity, a power of two as the growth policy requires. -/
def capacity (m : HashMapTable M) : Nat := 2 ^ m.size_log

/-- Modelled from the spec: a freshly constructed table with zeroed storage. -/
def empty (hash : Nat → Nat) (size_log : Nat) : HashMapTable M :=
  ⟨hash, size_log, fun _ => emptyCell, 0, false, emptyCell⟩

/-- Modelled from the spec: the deterministic linear probe over the bucket
array. Starting from position `pos`, it scans `fuel` slots; at each slot
`pos % cap` it stops with `(slot, true)` on a key match, stops with
`(slot, false)` on an empty slot (zero key), and otherwise advances. `none`
means the fuel ran out (never happens at fuel `cap` on a table respecting
the load-factor bound). -/
def probeLoop (buf : Nat → HashMapCell Nat M) (cap k : Nat) :
    Nat → Nat → Option (Nat × Bool)
  | _, 0 => none
  | pos, fuel + 1 =>
    if (buf (pos % cap)).value.first = k then some (pos % cap, true)
    else if (buf (pos % cap)).value.first = 0 then some (pos % cap, false)
    else probeLoop buf cap k (pos + 1) fuel

/-- The bucket index probing starts from: `hash(key) & (capacity - 1)`,
written as a remainder since the capacity is a power of two. -/
def slotFor (hf : Nat → Nat) (cap k : Nat) : Nat := hf k % cap

/-- Writes cell `c` at bucket index `i`. -/
def updateBuf (buf : Nat → HashMapCell Nat M) (i : Nat) (c : HashMapCell Nat M) :
    Nat → HashMapCell Nat M :=
  fun j => if j = i then c else buf j

/-- A `LookupResult`: a transient handle to the slot holding a key, either
the dedicated zero-key slot or a main-array bucket. -/
inductive Loc where
  | zeroSlot
  | bufSlot (i : Nat)
deriving DecidableEq

/-- Reads the mapped component stored at a slot handle (`none` when the
mapped bytes are uninitialized). -/
def readLoc (m : HashMapTable M) : Loc → Option M
  | .zeroSlot => m.zero_cell.value.second
  | .bufSlot i => (m.buf i).value.second

/-- Writes the mapped component at a slot handle, leaving the key alone. -/
def writeLoc (m : HashMapTable M) : Loc → Option M → HashMapTable M
  | .zeroSlot, v => { m with zero_cell := ⟨⟨m.zero_cell.value.first, v⟩⟩ }
  | .bufSlot i, v => { m with buf := updateBuf m.buf i ⟨⟨(m.buf i).value.first, v⟩⟩ }

/-- Modelled from the spec: reinsertion of one relocated cell during resize.
The cell's key is probed in the destination array and the whole cell (key,
mapped bytes and all) is byte-copied into the bucket the probe stops at. -/
def placeCell (hf : Nat → Nat) (cap : Nat) (nb : Nat → HashMapCell Nat M)
    (c : HashMapCell Nat M) : Nat → HashMapCell Nat M :=
  match probeLoop nb cap c.value.first (slotFor hf cap c.value.first) cap with
  | some (i, _) => updateBuf nb i c
  | none => nb

/-- Modelled from the spec: rehashing of the occupied old buckets, in bucket
order, into a fresh destination array. -/
def rehashAll (hf : Nat → Nat) (cap : Nat) (oldBuf : Nat → HashMapCell Nat M)
    (l : List Nat) (nb : Nat → HashMapCell Nat M) : Nat → HashMapCell Nat M :=
  l.foldl
    (fun b j => if (oldBuf j).value.first = 0 then b else placeCell hf cap b (oldBuf j))
    nb

/-- Modelled from the spec: resize allocates a fresh zeroed bucket array of
the next power of two and rehashes every occupied slot of the old array into
it, relocating each cell wholesale. The zero-key slot and the occupancy
count are untouched. -/
def resize (m : HashMapTable M) : HashMapTable M :=
  { m with
    size_log := m.size_log + 1,
    buf := rehashAll m.hash (2 ^ (m.size_log + 1)) m.buf (List.range m.capacity)
      (fun _ => emptyCell) }

/-- Modelled from the spec: in-place construction of a fresh key (and only
the key: the mapped bytes stay uninitialized) in empty bucket `i`, with the
occupancy counter incremented. -/
def insertAt (m : HashMapTable M) (k i : Nat) : HashMapTable M :=
  { m with buf := updateBuf m.buf i (HashMapCell.ofKey k), m_size := m.m_size + 1 }

/-- Modelled from the spec: `emplace(key, it, inserted)`. The zero key is
tested first and routed to the dedicated slot. A nonzero key probes from
`hash(key) & mask`; an equal slot is returned with `inserted = false`; on an
empty slot, if the insert would exceed the load-factor threshold (one half)
the table resizes first and re-probes, then the key alone is constructed in
place (`insertAt`, leaving the mapped bytes uninitialized). The fallback
arms after the `none` and found re-probe cases are unreachable on
well-formed tables. -/
def emplace (m : HashMapTable M) (k : Nat) : HashMapTable M × Loc × Bool :=
  if k = 0 then
    if m.has_zero then (m, .zeroSlot, false)
    else ({ m with has_zero := true, zero_cell := ⟨⟨0, m.zero_cell.value.second⟩⟩ },
          .zeroSlot, true)
  else
    match probeLoop m.buf m.capacity k (slotFor m.hash m.capacity k) m.capacity with
    | some (i, true) => (m, .bufSlot i, false)
    | some (i, false) =>
      if m.m_size + 1 > m.capacity / 2 then
        let m1 := m.resize
        match probeLoop m1.buf m1.capacity k (slotFor m1.hash m1.capacity k) m1.capacity with
        | some (i', false) => (m1.insertAt k i', .bufSlot i', true)
        | some (i', true) => (m1, .bufSlot i', false)
        | none => (m1, .bufSlot 0, false)
      else
        (m.insertAt k i, .bufSlot i, true)
    | none => (m, .bufSlot 0, false)

/-- Modelled from the spec: `find(key)`, the pure read path on the same probe
sequence, returning a slot handle or not-found. -/
def findLoc (m : HashMapTable M) (k : Nat) : Option Loc :=
  if k = 0 then
    if m.has_zero then some .zeroSlot else none
  else
    match probeLoop m.buf m.capacity k (slotFor m.hash m.capacity k) m.capacity with
    | some (i, true) => some (.bufSlot i)
    | _ => none

/-- Lookup of the mapped slot content: `some w` when the key is present with
mapped bytes `w` (`w = none` meaning present but uninitialized), `none` when
the key is absent. -/
def find (m : HashMapTable M) (k : Nat) : Option (Option M) :=
  (m.findLoc k).map m.readLoc

/-- Modelled from the spec: full iteration produces the zero-key slot (when
occupied) followed by the occupied main-array slots in bucket order. -/
def iterList (m : HashMapTable M) : List (Nat × Option M) :=
  (if m.has_zero then [(m.zero_cell.value.first, m.zero_cell.value.second)] else []) ++
    (List.range m.capacity).filterMap (fun j =>
      if (m.buf j).value.first = 0 then none
      else some ((m.buf j).value.first, (m.buf j).value.second))

/-- Embeds `HashMapTable::for_each_mapped`, whose body runs
`for (auto& v : *this) func(v.get_second());`: the visitor (modelled as a
state transformer) is applied to the mapped component of every iterated
slot, in iteration order. -/
def for_each_mapped {σ : Type} (m : HashMapTable M) (func : σ → Option M → σ) (s : σ) : σ :=
  m.iterList.foldl (fun a v => func a v.2) s

/-- Embeds `HashMapTable::operator[]`: performs `emplace`, and when the key
was newly inserted placement-constructs the mapped slot with
`mapped_type()` — the default value `dflt` — before handing out the slot. -/
def indexOp (dflt : M) (m : HashMapTable M) (k : Nat) :
    HashMapTable M × Loc × Bool :=
  let r := m.emplace k
  (if r.2.2 then r.1.writeLoc r.2.1 (some dflt) else r.1, r.2.1, r.2.2)

/-- The caller pattern `map[k] = v`: `operator[]` followed by an assignment
through the returned reference. -/
def setVal (dflt : M) (m : HashMapTable M) (k : Nat) (v : M) : HashMapTable M :=
  let r := indexOp dflt m k
  r.1.writeLoc r.2.1 (some v)

/-- Folds `map[k] = v` over a list of key/value pairs. -/
def setAll (dflt : M) (m : HashMapTable M) (ps : List (Nat × M)) : HashMapTable M :=
  ps.foldl (fun a p => setVal dflt a p.1 p.2) m

/-- The caller pattern `map[k] += 1` iterated `n` times, also counting how
many of the `emplace` calls reported an insertion. -/
def bumpN (m : HashMapTable Nat) (k : Nat) : Nat → HashMapTable Nat × Nat
  | 0 => (m, 0)
  | n + 1 =>
    let r := indexOp 0 m k
    let m' := r.1.writeLoc r.2.1 ((r.1.readLoc r.2.1).map (· + 1))
    let rest := bumpN m' k n
    (rest.1, rest.2 + (if r.2.2 then 1 else 0))

/-- Embeds `HashMapTable::get_null_key_data`, which returns `nullptr`. -/
def get_null_key_data (m : HashMapTable M) : Option M := none

/-- Embeds `HashMapTable::has_null_key_data`, which returns `false`. -/
def has_null_key_data (m : HashMapTable M) : Bool := false

end HashMapTable

/-! ### Verification infrastructure: probe-path invariant of the bucket array -/

namespace HashMapTable

variable {M : Type}

/-- Arithmetic helper: a nonzero shift inside one wrap of the modulus moves
the residue. -/
theorem mod_add_cancel {cap a x : Nat} (ha : a < cap) (hx : x < cap)
    (h : a = (a + x) % cap) : x = 0 := by
  rcases Nat.lt_or_ge (a + x) cap with h1 | h1
  · rw [Nat.mod_eq_of_lt h1] at h
    omega
  · have h2 : (a + x) % cap = (a + x - cap) % cap := Nat.mod_eq_sub_mod h1
    have h3 : a + x - cap < cap := by omega
    rw [h2, Nat.mod_eq_of_lt h3] at h
    omega

/-- Arithmetic helper: probe positions within one wrap are pairwise distinct. -/
theorem mod_shift_inj {cap s t d : Nat} (hcap : 0 < cap) (ht : t ≤ d) (hd : d < cap)
    (h : (s + t) % cap = (s + d) % cap) : t = d := by
  have hsd : s + d = (s + t) + (d - t) := by omega
  have h1 : (s + d) % cap = ((s + t) % cap + (d - t) % cap) % cap := by
    rw [hsd, Nat.add_mod]
  have h2 : (d - t) % cap = d - t := Nat.mod_eq_of_lt (by omega)
  rw [h2] at h1
  have h3 : (s + t) % cap < cap := Nat.mod_lt _ hcap
  have h4 : d - t = 0 := mod_add_cancel h3 (by omega) (h.trans h1)
  omega

/-- List helper: `find?` returns the unique satisfying element. -/
theorem find?_eq_some_of_unique {l : List Nat} {p : Nat → Bool} {i : Nat}
    (hmem : i ∈ l) (hpi : p i = true) (huniq : ∀ j ∈ l, p j = true → j = i) :
    l.find? p = some i := by
  induction l with
  | nil => cases hmem
  | cons a l ih =>
    by_cases hpa : p a = true
    · have hhd : a = i := huniq a (List.mem_cons_self a l) hpa
      rw [List.find?_cons_of_pos l hpa, hhd]
    · have hai : a ≠ i := fun h => hpa (h ▸ hpi)
      have hmem' : i ∈ l := by
        rcases List.mem_cons.mp hmem with h | h
        · exact absurd h.symm hai
        · exact h
      rw [List.find?_cons_of_neg l hpa]
      exact ih hmem' (fun j hj hpj => huniq j (List.mem_cons_of_mem a hj) hpj)

/-- Occupancy of a slot: its key is not the zero sentinel. -/
def occupiedAt (buf : Nat → HashMapCell Nat M) (j : Nat) : Prop :=
  (buf j).value.first ≠ 0

/-- Number of occupied slots in the bucket array. -/
def occCount (buf : Nat → HashMapCell Nat M) (cap : Nat) : Nat :=
  (List.range cap).countP (fun j => decide ((buf j).value.first ≠ 0))

/-- The probe path reaching slot `j` when looking for key `k`: some offset
`d` below the capacity lands on `j`, and every earlier probe position holds
a different, nonzero key. -/
def PathTo (buf : Nat → HashMapCell Nat M) (cap : Nat) (hf : Nat → Nat)
    (k j : Nat) : Prop :=
  ∃ d, d < cap ∧ j = (hf k % cap + d) % cap ∧
    ∀ t, t < d → (buf ((hf k % cap + t) % cap)).value.first ≠ 0 ∧
      (buf ((hf k % cap + t) % cap)).value.first ≠ k

/-- Well-formedness of a bucket array: every occupied slot is reachable by
an unbroken probe path from its key's start position, and keys are stored at
most once. -/
structure BufWF (buf : Nat → HashMapCell Nat M) (cap : Nat) (hf : Nat → Nat) : Prop where
  cap_pos : 0 < cap
  path : ∀ j, j < cap → (buf j).value.first ≠ 0 →
    PathTo buf cap hf ((buf j).value.first) j
  dist : ∀ i j, i < cap → j < cap → (buf i).value.first ≠ 0 →
    (buf i).value.first = (buf j).value.first → i = j

/-- Canonical slot-content lookup: the first bucket (in index order) holding
the key. On a `BufWF` array this is the only such bucket. -/
def lookupCell (buf : Nat → HashMapCell Nat M) (cap k : Nat) :
    Option (HashMapCell Nat M) :=
  ((List.range cap).find? (fun j => decide ((buf j).value.first = k))).map buf

theorem lookupCell_eq_some {buf : Nat → HashMapCell Nat M} {cap k : Nat}
    {hf : Nat → Nat} (wf : BufWF buf cap hf) {j : Nat} (hj : j < cap)
    (hjk : (buf j).value.first = k) (hk : k ≠ 0) :
    lookupCell buf cap k = some (buf j) := by
  have hfind : (List.range cap).find? (fun j => decide ((buf j).value.first = k))
      = some j := by
    apply find?_eq_some_of_unique (List.mem_range.mpr hj) (by simp [hjk])
    intro j' hj' hpj'
    have hj'k : (buf j').value.first = k := by simpa using hpj'
    exact wf.dist j' j (List.mem_range.mp hj') hj (by rw [hj'k]; exact hk)
      (by rw [hj'k, hjk])
  rw [lookupCell, hfind, Option.map_some']

theorem lookupCell_eq_none {buf : Nat → HashMapCell Nat M} {cap k : Nat}
    (habs : ∀ j, j < cap → (buf j).value.first ≠ k) :
    lookupCell buf cap k = none := by
  rw [lookupCell, List.find?_eq_none.mpr, Option.map_none']
  intro j hj
  simp [habs j (List.mem_range.mp hj)]

/-- Somewhere below the load-factor bound there is an empty bucket. -/
theorem exists_empty_of_occCount_lt {buf : Nat → HashMapCell Nat M} {cap : Nat}
    (h : occCount buf cap < cap) : ∃ e, e < cap ∧ (buf e).value.first = 0 := by
  by_contra hno
  push_neg at hno
  have : occCount buf cap = cap := by
    have := List.countP_eq_length
      (p := fun j => decide ((buf j).value.first ≠ 0)) (l := List.range cap)
    rw [occCount, this.mpr, List.length_range]
    intro j hj
    simp [hno j (List.mem_range.mp hj)]
  omega

/-- Probing depends only on the keys stored in the buckets. -/
theorem probeLoop_congr {buf buf' : Nat → HashMapCell Nat M} {cap k : Nat}
    (h : ∀ j, (buf' j).value.first = (buf j).value.first) :
    ∀ fuel pos, probeLoop buf' cap k pos fuel = probeLoop buf cap k pos fuel := by
  intro fuel
  induction fuel with
  | zero => intro pos; rfl
  | succ n ih =>
    intro pos
    simp only [probeLoop, h, ih]

/-- A probe skips over a stretch of occupied, non-matching buckets. -/
theorem probeLoop_skip {buf : Nat → HashMapCell Nat M} {cap k : Nat} :
    ∀ d pos fuel, d ≤ fuel →
    (∀ t, t < d → (buf ((pos + t) % cap)).value.first ≠ 0 ∧
      (buf ((pos + t) % cap)).value.first ≠ k) →
    probeLoop buf cap k pos fuel = probeLoop buf cap k (pos + d) (fuel - d) := by
  intro d
  induction d with
  | zero => intro pos fuel _ _; simp
  | succ n ih =>
    intro pos fuel hle hpre
    obtain ⟨f, rfl⟩ : ∃ f, fuel = f + 1 := ⟨fuel - 1, by omega⟩
    have h0 := hpre 0 (Nat.succ_pos n)
    rw [Nat.add_zero] at h0
    have hstep : probeLoop buf cap k pos (f + 1) = probeLoop buf cap k (pos + 1) f := by
      simp only [probeLoop, if_neg h0.2, if_neg h0.1]
    rw [hstep]
    have hpre' : ∀ t, t < n → (buf ((pos + 1 + t) % cap)).value.first ≠ 0 ∧
        (buf ((pos + 1 + t) % cap)).value.first ≠ k := by
      intro t ht
      have := hpre (t + 1) (by omega)
      have harr : pos + (t + 1) = pos + 1 + t := by omega
      rw [harr] at this
      exact this
    rw [ih (pos + 1) f (by omega) hpre']
    have h1 : pos + 1 + n = pos + (n + 1) := by omega
    have h2 : f - n = f + 1 - (n + 1) := by omega
    rw [h1, h2]

/-- A probe stops with `true` at a key match. -/
theorem probeLoop_hit_found {buf : Nat → HashMapCell Nat M} {cap k pos fuel : Nat}
    (h : (buf (pos % cap)).value.first = k) :
    probeLoop buf cap k pos (fuel + 1) = some (pos % cap, true) := by
  simp [probeLoop, h]

/-- A probe stops with `false` at an empty bucket. -/
theorem probeLoop_hit_empty {buf : Nat → HashMapCell Nat M} {cap k pos fuel : Nat}
    (hk : (buf (pos % cap)).value.first ≠ k) (h0 : (buf (pos % cap)).value.first = 0) :
    probeLoop buf cap k pos (fuel + 1) = some (pos % cap, false) := by
  have hk' : ¬(0 : Nat) = k := by rw [h0] at hk; exact hk
  simp [probeLoop, hk, h0, hk']

/-- A full-capacity probe for a key follows its probe path to the bucket
holding it. -/
theorem probeLoop_of_path {buf : Nat → HashMapCell Nat M} {cap : Nat}
    {hf : Nat → Nat} {k j : Nat} (hpath : PathTo buf cap hf k j)
    (hjk : (buf j).value.first = k) :
    probeLoop buf cap k (hf k % cap) cap = some (j, true) := by
  obtain ⟨d, hd, hj, hpre⟩ := hpath
  rw [probeLoop_skip d (hf k % cap) cap (le_of_lt hd) hpre]
  obtain ⟨f, hfd⟩ : ∃ f, cap - d = f + 1 := ⟨cap - d - 1, by omega⟩
  rw [hfd, probeLoop_hit_found (by rw [← hj]; exact hjk), ← hj]

/-- When some bucket is empty, every probe sequence meets a stopping bucket
within one wrap of the array. -/
theorem exists_stop_of_empty {buf : Nat → HashMapCell Nat M} {cap pos k : Nat}
    (hcap : 0 < cap) (he : ∃ e, e < cap ∧ (buf e).value.first = 0) :
    ∃ t, t < cap ∧ ((buf ((pos + t) % cap)).value.first = k ∨
      (buf ((pos + t) % cap)).value.first = 0) := by
  obtain ⟨e, he1, he2⟩ := he
  have hrlt : pos % cap < cap := Nat.mod_lt _ hcap
  refine ⟨(e + cap - pos % cap) % cap, Nat.mod_lt _ hcap, Or.inr ?_⟩
  have h1 : (pos + (e + cap - pos % cap) % cap) % cap = e := by
    rw [Nat.add_mod_mod, ← Nat.mod_add_mod]
    have h2 : pos % cap + (e + cap - pos % cap) = e + cap := by omega
    rw [h2, Nat.add_mod_right, Nat.mod_eq_of_lt he1]
  rw [h1]
  exact he2

/-- Characterization of a full-capacity probe: it stops at the first
matching-or-empty bucket on the probe sequence. -/
theorem probeLoop_stops {buf : Nat → HashMapCell Nat M} {cap k pos : Nat}
    (hex : ∃ t, t < cap ∧ ((buf ((pos + t) % cap)).value.first = k ∨
      (buf ((pos + t) % cap)).value.first = 0)) :
    ∃ d, d < cap ∧
      (∀ t, t < d → (buf ((pos + t) % cap)).value.first ≠ 0 ∧
        (buf ((pos + t) % cap)).value.first ≠ k) ∧
      (((buf ((pos + d) % cap)).value.first = k ∧
          probeLoop buf cap k pos cap = some ((pos + d) % cap, true)) ∨
       ((buf ((pos + d) % cap)).value.first ≠ k ∧
          (buf ((pos + d) % cap)).value.first = 0 ∧
          probeLoop buf cap k pos cap = some ((pos + d) % cap, false))) := by
  obtain ⟨t0, ht0, hPt0⟩ := hex
  have hP : ∃ t, (buf ((pos + t) % cap)).value.first = k ∨
      (buf ((pos + t) % cap)).value.first = 0 := ⟨t0, hPt0⟩
  have hd0 : Nat.find hP ≤ t0 := Nat.find_min' hP hPt0
  refine ⟨Nat.find hP, by omega, ?_, ?_⟩
  · intro t ht
    have := Nat.find_min hP ht
    push_neg at this
    exact ⟨this.2, this.1⟩
  · have hpre : ∀ t, t < Nat.find hP →
        (buf ((pos + t) % cap)).value.first ≠ 0 ∧
        (buf ((pos + t) % cap)).value.first ≠ k := by
      intro t ht
      have := Nat.find_min hP ht
      push_neg at this
      exact ⟨this.2, this.1⟩
    have hskip := probeLoop_skip (Nat.find hP) pos cap (by omega) hpre
    obtain ⟨f, hfd⟩ : ∃ f, cap - Nat.find hP = f + 1 := ⟨cap - Nat.find hP - 1, by omega⟩
    have hspec := Nat.find_spec hP
    by_cases hk : (buf ((pos + Nat.find hP) % cap)).value.first = k
    · left
      exact ⟨hk, by rw [hskip, hfd, probeLoop_hit_found hk]⟩
    · right
      have h0 : (buf ((pos + Nat.find hP) % cap)).value.first = 0 := by
        rcases hspec with h | h
        · exact absurd h hk
        · exact h
      exact ⟨hk, h0, by rw [hskip, hfd, probeLoop_hit_empty hk h0]⟩

/-- On a well-formed array, probing for a stored key finds its bucket. -/
theorem probe_found {buf : Nat → HashMapCell Nat M} {cap : Nat} {hf : Nat → Nat}
    {k j : Nat} (wf : BufWF buf cap hf) (hj : j < cap)
    (hjk : (buf j).value.first = k) (hk : k ≠ 0) :
    probeLoop buf cap k (hf k % cap) cap = some (j, true) := by
  have h := wf.path j hj (by rw [hjk]; exact hk)
  rw [hjk] at h
  exact probeLoop_of_path h hjk

/-- On a well-formed array with an empty bucket, probing for an absent key
stops at an empty bucket reached by a clean probe path. -/
theorem probe_absent {buf : Nat → HashMapCell Nat M} {cap : Nat} {hf : Nat → Nat}
    {k : Nat} (wf : BufWF buf cap hf)
    (hroom : ∃ e, e < cap ∧ (buf e).value.first = 0) (hk : k ≠ 0)
    (habs : ∀ j, j < cap → (buf j).value.first ≠ k) :
    ∃ i, i < cap ∧ (buf i).value.first = 0 ∧ PathTo buf cap hf k i ∧
      probeLoop buf cap k (hf k % cap) cap = some (i, false) := by
  obtain ⟨d, hd, hpre, hres⟩ :=
    probeLoop_stops (@exists_stop_of_empty M buf cap (hf k % cap) k wf.cap_pos hroom)
  rcases hres with ⟨hkk, _⟩ | ⟨hkk, h0, hloop⟩
  · exact absurd hkk (habs _ (Nat.mod_lt _ wf.cap_pos))
  · exact ⟨(hf k % cap + d) % cap, Nat.mod_lt _ wf.cap_pos, h0,
      ⟨d, hd, rfl, hpre⟩, hloop⟩

/-- List helper: `countP` only depends on the predicate's values on the list. -/
theorem countP_agree {p p' : Nat → Bool} :
    ∀ l : List Nat, (∀ j ∈ l, p' j = p j) → l.countP p' = l.countP p := by
  intro l
  induction l with
  | nil => intro _; rfl
  | cons a l ih =>
    intro h
    rw [List.countP_cons, List.countP_cons, h a (List.mem_cons_self a l),
      ih (fun j hj => h j (List.mem_cons_of_mem a hj))]

/-- List helper: flipping the predicate from false to true at one element of
a duplicate-free list raises the count by one. -/
theorem countP_update_of_nodup {p p' : Nat → Bool} {i : Nat} :
    ∀ l : List Nat, l.Nodup → i ∈ l → (∀ j, j ≠ i → p' j = p j) →
    p i = false → p' i = true → l.countP p' = l.countP p + 1 := by
  intro l
  induction l with
  | nil => intro _ h; cases h
  | cons a l ih =>
    intro hnd hmem hagree hpi hpi'
    rw [List.countP_cons, List.countP_cons]
    by_cases hai : a = i
    · subst hai
      have hnotmem : a ∉ l := (List.nodup_cons.mp hnd).1
      have hcongr : l.countP p' = l.countP p :=
        countP_agree l (fun j hj => hagree j (fun hji => hnotmem (hji ▸ hj)))
      rw [hcongr, hpi, hpi']
      simp
    · have hstep := ih (List.nodup_cons.mp hnd).2
        (by rcases List.mem_cons.mp hmem with h | h
            · exact absurd h.symm hai
            · exact h)
        hagree hpi hpi'
      rw [hagree a hai, hstep]
      omega

/-- List helper: `find?` only depends on the predicate's values on the list. -/
theorem find?_agree {p p' : Nat → Bool} :
    ∀ l : List Nat, (∀ j ∈ l, p' j = p j) → l.find? p' = l.find? p := by
  intro l
  induction l with
  | nil => intro _; rfl
  | cons a l ih =>
    intro h
    have ha := h a (List.mem_cons_self a l)
    by_cases hpa : p a = true
    · rw [List.find?_cons_of_pos l hpa, List.find?_cons_of_pos l (ha.trans hpa)]
    · have hpa' : ¬p' a = true := by rw [ha]; exact hpa
      rw [List.find?_cons_of_neg l hpa, List.find?_cons_of_neg l hpa',
        ih (fun j hj => h j (List.mem_cons_of_mem a hj))]

/-- Inserting a fresh-keyed cell into the empty bucket its probe reaches
preserves the array invariant and updates lookups at exactly that key. -/
theorem insert_spec {buf : Nat → HashMapCell Nat M} {cap : Nat} {hf : Nat → Nat}
    {k : Nat} {c : HashMapCell Nat M} (wf : BufWF buf cap hf)
    (hroom : occCount buf cap < cap) (hk : k ≠ 0)
    (habs : ∀ j, j < cap → (buf j).value.first ≠ k) (hc : c.value.first = k) :
    ∃ i, i < cap ∧ (buf i).value.first = 0 ∧
      probeLoop buf cap k (hf k % cap) cap = some (i, false) ∧
      BufWF (updateBuf buf i c) cap hf ∧
      occCount (updateBuf buf i c) cap = occCount buf cap + 1 ∧
      updateBuf buf i c i = c ∧
      (∀ j, j ≠ i → updateBuf buf i c j = buf j) ∧
      (∀ k', k' ≠ 0 → lookupCell (updateBuf buf i c) cap k' =
        if k' = k then some c else lookupCell buf cap k') := by
  obtain ⟨i, hi, hie, hpath, hloop⟩ :=
    probe_absent wf (exists_empty_of_occCount_lt hroom) hk habs
  have hupd_i : updateBuf buf i c i = c := by simp [updateBuf]
  have hupd_ne : ∀ j, j ≠ i → updateBuf buf i c j = buf j := by
    intro j hj
    simp [updateBuf, hj]
  have hwf' : BufWF (updateBuf buf i c) cap hf := by
    refine ⟨wf.cap_pos, ?_, ?_⟩
    · intro j hj hocc
      by_cases hji : j = i
      · subst hji
        rw [hupd_i, hc]
        obtain ⟨d, hd, hij, hpre⟩ := hpath
        refine ⟨d, hd, hij, ?_⟩
        intro t ht
        have hslot : (hf k % cap + t) % cap ≠ j := by
          intro hcon
          have : t = d := mod_shift_inj wf.cap_pos (by omega) hd (by rw [hcon, hij])
          omega
        rw [hupd_ne _ hslot]
        exact hpre t ht
      · rw [hupd_ne j hji] at hocc ⊢
        obtain ⟨d, hd, hjd, hpre⟩ := wf.path j hj hocc
        refine ⟨d, hd, hjd, ?_⟩
        intro t ht
        have hocc_slot := (hpre t ht).1
        have hslot : (hf ((buf j).value.first) % cap + t) % cap ≠ i := by
          intro hcon
          exact hocc_slot (by rw [hcon]; exact hie)
        rw [hupd_ne _ hslot]
        exact hpre t ht
    · intro a b ha hb hocc heq
      by_cases hai : a = i
      · by_cases hbi : b = i
        · rw [hai, hbi]
        · rw [hai, hupd_i] at hocc heq
          rw [hupd_ne b hbi] at heq
          have hbk : (buf b).value.first = k := by rw [← heq, hc]
          exact absurd hbk (habs b hb)
      · by_cases hbi : b = i
        · rw [hupd_ne a hai] at hocc heq
          rw [hbi, hupd_i, hc] at heq
          exact absurd heq (habs a ha)
        · rw [hupd_ne a hai] at hocc heq
          rw [hupd_ne b hbi] at heq
          exact wf.dist a b ha hb hocc heq
  have hcount : occCount (updateBuf buf i c) cap = occCount buf cap + 1 := by
    apply countP_update_of_nodup (List.range cap) (List.nodup_range cap)
      (List.mem_range.mpr hi)
    · intro j hj
      rw [hupd_ne j hj]
    · simp [hie]
    · simp [hupd_i, hc, hk]
  have hlook : ∀ k', k' ≠ 0 → lookupCell (updateBuf buf i c) cap k' =
      if k' = k then some c else lookupCell buf cap k' := by
    intro k' hk'
    by_cases hkk : k' = k
    · subst hkk
      rw [if_pos rfl]
      have := lookupCell_eq_some hwf' hi (by rw [hupd_i]; exact hc) hk'
      rw [this, hupd_i]
    · rw [if_neg hkk]
      have hfind : (List.range cap).find?
          (fun j => decide ((updateBuf buf i c j).value.first = k')) =
          (List.range cap).find? (fun j => decide ((buf j).value.first = k')) := by
        apply find?_agree
        intro j hj
        by_cases hji : j = i
        · subst hji
          rw [hupd_i, hc, hie]
          have h1 : ¬k = k' := fun h => hkk h.symm
          have h2 : ¬(0 : Nat) = k' := fun h => hk' h.symm
          simp [h1, h2]
        · rw [hupd_ne j hji]
      rw [lookupCell, lookupCell, hfind]
      cases hres : (List.range cap).find? (fun j => decide ((buf j).value.first = k')) with
      | none => rfl
      | some j0 =>
        have hpj0 : (buf j0).value.first = k' := by
          have := List.find?_some hres
          simpa using this
        have hj0i : j0 ≠ i := by
          intro hcon
          rw [hcon, hie] at hpj0
          exact hk' hpj0.symm
        rw [Option.map_some', Option.map_some', hupd_ne j0 hj0i]
  exact ⟨i, hi, hie, hloop, hwf', hcount, hupd_i, hupd_ne, hlook⟩

/-- Relocating one fresh-keyed cell via `placeCell` preserves the invariant
and updates lookups at exactly the cell's key. -/
theorem placeCell_spec {nb : Nat → HashMapCell Nat M} {cap : Nat} {hf : Nat → Nat}
    {c : HashMapCell Nat M} (wf : BufWF nb cap hf)
    (hroom : occCount nb cap < cap) (hk : c.value.first ≠ 0)
    (habs : ∀ j, j < cap → (nb j).value.first ≠ c.value.first) :
    BufWF (placeCell hf cap nb c) cap hf ∧
    occCount (placeCell hf cap nb c) cap = occCount nb cap + 1 ∧
    (∀ k', k' ≠ 0 → lookupCell (placeCell hf cap nb c) cap k' =
      if k' = c.value.first then some c else lookupCell nb cap k') := by
  obtain ⟨i, hi, hie, hloop, hwf', hcount, hupd_i, hupd_ne, hlook⟩ :=
    insert_spec wf hroom hk habs rfl
  have hpc : placeCell hf cap nb c = updateBuf nb i c := by
    rw [placeCell, slotFor, hloop]
  rw [hpc]
  exact ⟨hwf', hcount, hlook⟩

/-- Invariant of the resize rehash loop: rehashing a duplicate-free batch of
old buckets into a well-formed destination array below capacity keeps it
well formed, adds the occupied batch to the occupancy, and extends lookups
with exactly the batch's cells. -/
theorem rehashAll_spec {oldBuf : Nat → HashMapCell Nat M} {oldcap cap : Nat}
    {hf : Nat → Nat}
    (hdist : ∀ i j, i < oldcap → j < oldcap → (oldBuf i).value.first ≠ 0 →
      (oldBuf i).value.first = (oldBuf j).value.first → i = j) :
    ∀ l : List Nat, ∀ nb : Nat → HashMapCell Nat M,
    (∀ j ∈ l, j < oldcap) → l.Nodup → BufWF nb cap hf →
    occCount nb cap + l.countP (fun j => decide ((oldBuf j).value.first ≠ 0)) < cap →
    (∀ j ∈ l, (oldBuf j).value.first ≠ 0 →
      ∀ j2, j2 < cap → (nb j2).value.first ≠ (oldBuf j).value.first) →
    BufWF (rehashAll hf cap oldBuf l nb) cap hf ∧
    occCount (rehashAll hf cap oldBuf l nb) cap =
      occCount nb cap + l.countP (fun j => decide ((oldBuf j).value.first ≠ 0)) ∧
    (∀ k, k ≠ 0 → lookupCell (rehashAll hf cap oldBuf l nb) cap k =
      (match l.find? (fun j => decide ((oldBuf j).value.first = k)) with
       | some j => some (oldBuf j)
       | none => lookupCell nb cap k)) := by
  intro l
  induction l with
  | nil =>
    intro nb _ _ hwf _ _
    refine ⟨hwf, by simp [rehashAll], ?_⟩
    intro k hk
    simp [rehashAll]
  | cons j l ih =>
    intro nb hmem hnd hwf hbound hdisj
    have hjlt : j < oldcap := hmem j (List.mem_cons_self j l)
    by_cases hocc : (oldBuf j).value.first = 0
    · have hstep : rehashAll hf cap oldBuf (j :: l) nb = rehashAll hf cap oldBuf l nb := by
        simp [rehashAll, hocc]
      have hcnt : (j :: l).countP (fun j => decide ((oldBuf j).value.first ≠ 0)) =
          l.countP (fun j => decide ((oldBuf j).value.first ≠ 0)) := by
        rw [List.countP_cons]
        simp [hocc]
      obtain ⟨hwf', hcount', hlook'⟩ := ih nb
        (fun a ha => hmem a (List.mem_cons_of_mem j ha))
        (List.nodup_cons.mp hnd).2 hwf (by rw [hcnt] at hbound; exact hbound)
        (fun a ha => hdisj a (List.mem_cons_of_mem j ha))
      refine ⟨by rw [hstep]; exact hwf', by rw [hstep, hcnt]; exact hcount', ?_⟩
      intro k hk
      have hfind : (j :: l).find? (fun j => decide ((oldBuf j).value.first = k)) =
          l.find? (fun j => decide ((oldBuf j).value.first = k)) := by
        apply List.find?_cons_of_neg
        simp [hocc]
        intro hko
        exact hk hko.symm
      rw [hstep, hfind]
      exact hlook' k hk
    · have hroom : occCount nb cap < cap := by
        have : 1 ≤ (j :: l).countP (fun j => decide ((oldBuf j).value.first ≠ 0)) := by
          rw [List.countP_cons]
          simp [hocc]
        omega
      obtain ⟨hwf1, hcount1, hlook1⟩ := placeCell_spec hwf hroom hocc
        (fun j2 hj2 hcon => hdisj j (List.mem_cons_self j l) hocc j2 hj2 hcon)
      set nb1 := placeCell hf cap nb (oldBuf j) with hnb1
      have hstep : rehashAll hf cap oldBuf (j :: l) nb = rehashAll hf cap oldBuf l nb1 := by
        simp [rehashAll, hocc, hnb1]
      have hcnt : (j :: l).countP (fun j => decide ((oldBuf j).value.first ≠ 0)) =
          l.countP (fun j => decide ((oldBuf j).value.first ≠ 0)) + 1 := by
        rw [List.countP_cons]
        simp [hocc]
      have hdisj1 : ∀ a ∈ l, (oldBuf a).value.first ≠ 0 →
          ∀ j2, j2 < cap → (nb1 j2).value.first ≠ (oldBuf a).value.first := by
        intro a ha haocc j2 hj2 hcon
        have haj : a ≠ j := by
          intro h
          exact (List.nodup_cons.mp hnd).1 (h ▸ ha)
        by_cases hj2look : (nb1 j2).value.first = (oldBuf j).value.first
        · have heq : (oldBuf a).value.first = (oldBuf j).value.first := by
            rw [← hcon, hj2look]
          exact haj (hdist a j (hmem a (List.mem_cons_of_mem j ha)) hjlt haocc heq)
        · -- nb1 j2 is an untouched bucket of nb
          have hl : lookupCell nb1 cap ((oldBuf a).value.first) =
              if (oldBuf a).value.first = (oldBuf j).value.first then some (oldBuf j)
              else lookupCell nb cap ((oldBuf a).value.first) := hlook1 _ haocc
          have hne : (oldBuf a).value.first ≠ (oldBuf j).value.first := by
            intro h
            exact haj (hdist a j (hmem a (List.mem_cons_of_mem j ha)) hjlt haocc h)
          rw [if_neg hne] at hl
          have habsa : lookupCell nb cap ((oldBuf a).value.first) = none :=
            lookupCell_eq_none (fun j3 hj3 => hdisj a (List.mem_cons_of_mem j ha) haocc j3 hj3)
          rw [habsa] at hl
          have := lookupCell_eq_some hwf1 hj2 hcon haocc
          rw [this] at hl
          cases hl
      obtain ⟨hwf', hcount', hlook'⟩ := ih nb1
        (fun a ha => hmem a (List.mem_cons_of_mem j ha))
        (List.nodup_cons.mp hnd).2 hwf1
        (by rw [hcount1]; rw [hcnt] at hbound; omega)
        hdisj1
      refine ⟨by rw [hstep]; exact hwf', by rw [hstep, hcount', hcount1, hcnt]; omega, ?_⟩
      intro k hk
      rw [hstep, hlook' k hk]
      by_cases hjk : (oldBuf j).value.first = k
      · have hfind : (j :: l).find? (fun j => decide ((oldBuf j).value.first = k)) =
            some j := List.find?_cons_of_pos _ (by simp [hjk])
        have hfindl : l.find? (fun j => decide ((oldBuf j).value.first = k)) = none := by
          rw [List.find?_eq_none]
          intro a ha hpa
          have hak : (oldBuf a).value.first = k := by simpa using hpa
          have haocc : (oldBuf a).value.first ≠ 0 := by rw [hak]; exact hk
          have : a = j := hdist a j (hmem a (List.mem_cons_of_mem j ha)) hjlt haocc
            (by rw [hak, hjk])
          exact (List.nodup_cons.mp hnd).1 (this ▸ ha)
        rw [hfind, hfindl]
        have := hlook1 k hk
        rw [if_pos hjk.symm] at this
        exact this
      · have hfind : (j :: l).find? (fun j => decide ((oldBuf j).value.first = k)) =
            l.find? (fun j => decide ((oldBuf j).value.first = k)) :=
          List.find?_cons_of_neg _ (by simp [hjk])
        rw [hfind]
        cases hres : l.find? (fun j => decide ((oldBuf j).value.first = k)) with
        | none =>
          have := hlook1 k hk
          rw [if_neg (fun h => hjk (h.symm))] at this
          exact this
        | some a => rfl

/-- Well-formedness of a whole table: the bucket array satisfies the probe
invariant, the occupancy counter is accurate, the load factor is at most one
half, and the dedicated zero slot carries the zero key. -/
structure WF (m : HashMapTable M) : Prop where
  bufwf : BufWF m.buf m.capacity m.hash
  count : occCount m.buf m.capacity = m.m_size
  bound : m.m_size ≤ m.capacity / 2
  zkey : m.zero_cell.value.first = 0

theorem resize_capacity (m : HashMapTable M) :
    (resize m).capacity = 2 * m.capacity := by
  simp [resize, capacity, pow_succ]
  ring

/-- Resize preserves well-formedness (with slack regained below the halved
load factor) and preserves every lookup, the zero slot, the occupancy
counter and the hash policy. -/
theorem resize_spec {m : HashMapTable M} (wf : WF m) :
    WF (resize m) ∧
    (∀ k, k ≠ 0 → lookupCell (resize m).buf (resize m).capacity k =
      lookupCell m.buf m.capacity k) ∧
    (resize m).hash = m.hash ∧ (resize m).m_size = m.m_size ∧
    (resize m).has_zero = m.has_zero ∧ (resize m).zero_cell = m.zero_cell ∧
    m.m_size + 1 ≤ (resize m).capacity / 2 := by
  have hcap2 : (2 : Nat) ^ (m.size_log + 1) = 2 * m.capacity := by
    rw [capacity, pow_succ]
    ring
  have hcappos : 0 < m.capacity := wf.bufwf.cap_pos
  have hwfnb : BufWF (fun _ => (emptyCell : HashMapCell Nat M))
      (2 ^ (m.size_log + 1)) m.hash := by
    refine ⟨pow_pos (by norm_num) _, ?_, ?_⟩
    · intro j hj hocc
      exact absurd rfl hocc
    · intro i j hi hj hocc _
      exact absurd rfl hocc
  have hocc0 : occCount (fun _ => (emptyCell : HashMapCell Nat M))
      (2 ^ (m.size_log + 1)) = 0 := by
    rw [occCount, List.countP_eq_zero]
    intro j hj
    simp [emptyCell]
  have hcnt : (List.range m.capacity).countP
      (fun j => decide ((m.buf j).value.first ≠ 0)) = m.m_size := wf.count
  obtain ⟨hwf', hcount', hlook'⟩ := rehashAll_spec wf.bufwf.dist
    (List.range m.capacity) (fun _ => emptyCell)
    (fun j hj => List.mem_range.mp hj) (List.nodup_range m.capacity) hwfnb
    (by rw [hocc0, hcnt, hcap2]; have hb := wf.bound; omega)
    (fun j hj hocc j2 hj2 hcon => hocc (by simp [emptyCell] at hcon; exact hcon.symm))
  have hbufeq : (resize m).buf = rehashAll m.hash (2 ^ (m.size_log + 1)) m.buf
      (List.range m.capacity) (fun _ => emptyCell) := rfl
  have hcapeq : (resize m).capacity = 2 ^ (m.size_log + 1) := rfl
  refine ⟨⟨by rw [hbufeq, hcapeq]; exact hwf', ?_, ?_, wf.zkey⟩, ?_, rfl, rfl, rfl, rfl, ?_⟩
  · rw [hbufeq, hcapeq, hcount', hocc0, hcnt]
    simp [resize]
  · have : (resize m).m_size = m.m_size := rfl
    rw [this, hcapeq, hcap2]
    have := wf.bound
    omega
  · intro k hk
    rw [hbufeq, hcapeq, hlook' k hk]
    have hnb_none : lookupCell (fun _ => (emptyCell : HashMapCell Nat M))
        (2 ^ (m.size_log + 1)) k = none :=
      lookupCell_eq_none (fun j hj h => hk h.symm)
    rw [hnb_none, lookupCell]
    cases hres : (List.range m.capacity).find?
        (fun j => decide ((m.buf j).value.first = k)) with
    | none => simp
    | some j => simp
  · rw [hcapeq, hcap2]
    have := wf.bound
    omega

/-- A well-formed table has an empty bucket (load factor at most one half). -/
theorem wf_room {m : HashMapTable M} (wf : WF m) :
    ∃ e, e < m.capacity ∧ (m.buf e).value.first = 0 := by
  apply exists_empty_of_occCount_lt
  rw [wf.count]
  have h1 := wf.bound
  have h2 := wf.bufwf.cap_pos
  omega

theorem find_zero (m : HashMapTable M) :
    m.find 0 = if m.has_zero then some m.zero_cell.value.second else none := by
  cases hz : m.has_zero <;> simp [find, findLoc, readLoc, hz]

/-- On a well-formed table, the probe-based `find` agrees with the canonical
bucket lookup. -/
theorem find_nonzero {m : HashMapTable M} {k : Nat} (wf : WF m) (hk : k ≠ 0) :
    m.find k = (lookupCell m.buf m.capacity k).map (fun c => c.value.second) := by
  rw [find, findLoc, if_neg hk]
  by_cases hpres : ∃ j, j < m.capacity ∧ (m.buf j).value.first = k
  · obtain ⟨j, hj, hjk⟩ := hpres
    have hloop := probe_found wf.bufwf hj hjk hk
    simp only [slotFor]
    rw [hloop, lookupCell_eq_some wf.bufwf hj hjk hk]
    simp [readLoc]
  · push_neg at hpres
    have habs : ∀ j, j < m.capacity → (m.buf j).value.first ≠ k := hpres
    obtain ⟨i, hi, hie, hpath, hloop⟩ := probe_absent wf.bufwf (wf_room wf) hk habs
    simp only [slotFor]
    rw [hloop, lookupCell_eq_none habs]
    simp

/-- Lookups of nonzero keys ignore the zero slot: tables agreeing on bucket
array, capacity and hash agree on them. -/
theorem find_congr_buf {m m' : HashMapTable M} (hbuf : m'.buf = m.buf)
    (hcap : m'.capacity = m.capacity) (hhash : m'.hash = m.hash) {k : Nat}
    (hk : k ≠ 0) : m'.find k = m.find k := by
  rw [find, find, findLoc, findLoc, if_neg hk, if_neg hk, hbuf, hcap, hhash]
  cases probeLoop m.buf m.capacity k (slotFor m.hash m.capacity k) m.capacity with
  | none => rfl
  | some ib =>
    obtain ⟨i, b⟩ := ib
    cases b
    · rfl
    · simp [readLoc, hbuf]

/-- For a nonzero key, `findLoc` never answers the zero slot. -/
theorem findLoc_nonzero_shape {m : HashMapTable M} {k : Nat} (hk : k ≠ 0) :
    m.findLoc k = none ∨ ∃ i, m.findLoc k = some (.bufSlot i) := by
  rw [findLoc, if_neg hk]
  cases probeLoop m.buf m.capacity k (slotFor m.hash m.capacity k) m.capacity with
  | none => exact Or.inl rfl
  | some ib =>
    obtain ⟨i, b⟩ := ib
    cases b
    · exact Or.inl rfl
    · exact Or.inr ⟨i, rfl⟩

/-- When `findLoc` locates a key, `emplace` returns that slot unchanged with
`inserted = false`. -/
theorem emplace_found {m : HashMapTable M} {k : Nat} {loc : Loc}
    (h : m.findLoc k = some loc) : m.emplace k = (m, loc, false) := by
  by_cases hk : k = 0
  · subst hk
    rw [findLoc] at h
    simp only [if_pos rfl] at h
    cases hz : m.has_zero
    · rw [hz] at h
      simp at h
    · rw [hz] at h
      simp only [if_pos rfl] at h
      have hloc : loc = Loc.zeroSlot := by
        cases h
        rfl
      rw [emplace]
      simp [hz, hloc]
  · rw [findLoc, if_neg hk] at h
    cases hres : probeLoop m.buf m.capacity k (slotFor m.hash m.capacity k) m.capacity with
    | none =>
      rw [hres] at h
      simp at h
    | some ib =>
      obtain ⟨i, b⟩ := ib
      cases b
      · rw [hres] at h
        simp at h
      · rw [hres] at h
        simp at h
        rw [emplace, if_neg hk, hres, ← h]

/-- Resize preserves the outcome of every lookup. -/
theorem resize_find {m : HashMapTable M} (wf : WF m) :
    ∀ k, (resize m).find k = m.find k := by
  intro k
  obtain ⟨wf', hlook, hhash, hsize, hzero, hzc, hslack⟩ := resize_spec wf
  by_cases hk : k = 0
  · subst hk
    rw [find_zero, find_zero, hzero, hzc]
  · rw [find_nonzero wf' hk, find_nonzero wf hk, hlook k hk]

/-- Constructing a fresh nonzero key in the empty bucket its probe reaches:
well-formedness is preserved, the key becomes findable at that bucket with
uninitialized mapped bytes, and every other lookup is untouched. -/
theorem insertAt_spec {m2 : HashMapTable M} {k : Nat} (wf : WF m2) (hk : k ≠ 0)
    (habs : ∀ j, j < m2.capacity → (m2.buf j).value.first ≠ k)
    (hbound : m2.m_size + 1 ≤ m2.capacity / 2) :
    ∃ i, i < m2.capacity ∧
      probeLoop m2.buf m2.capacity k (slotFor m2.hash m2.capacity k) m2.capacity =
        some (i, false) ∧
      WF (m2.insertAt k i) ∧
      (m2.insertAt k i).findLoc k = some (.bufSlot i) ∧
      (m2.insertAt k i).readLoc (.bufSlot i) = none ∧
      (∀ k', k' ≠ k → (m2.insertAt k i).find k' = m2.find k') := by
  have hroom : occCount m2.buf m2.capacity < m2.capacity := by
    rw [wf.count]
    have := wf.bufwf.cap_pos
    omega
  obtain ⟨i, hi, hie, hloop, hwf', hcount, hupd_i, hupd_ne, hlook⟩ :=
    insert_spec (c := HashMapCell.ofKey k) wf.bufwf hroom hk habs rfl
  have hbuf' : (m2.insertAt k i).buf = updateBuf m2.buf i (HashMapCell.ofKey k) := rfl
  have hcap' : (m2.insertAt k i).capacity = m2.capacity := rfl
  have hhash' : (m2.insertAt k i).hash = m2.hash := rfl
  have hwfT : WF (m2.insertAt k i) := by
    refine ⟨?_, ?_, ?_, wf.zkey⟩
    · rw [hbuf', hcap', hhash']
      exact hwf'
    · rw [hbuf', hcap', hcount, wf.count]
      rfl
    · have : (m2.insertAt k i).m_size = m2.m_size + 1 := rfl
      rw [this, hcap']
      exact hbound
  have hfirst_i : ((m2.insertAt k i).buf i).value.first = k := by
    rw [hbuf', hupd_i]
    rfl
  have hfindLoc : (m2.insertAt k i).findLoc k = some (.bufSlot i) := by
    rw [findLoc, if_neg hk]
    have hloop' := probe_found hwfT.bufwf (by rw [hcap']; exact hi) hfirst_i hk
    simp only [slotFor]
    rw [hloop']
  have hread : (m2.insertAt k i).readLoc (.bufSlot i) = none := by
    rw [readLoc, hbuf', hupd_i]
    rfl
  refine ⟨i, hi, by simp only [slotFor]; exact hloop, hwfT, hfindLoc, hread, ?_⟩
  intro k' hk'
  by_cases hk0 : k' = 0
  · subst hk0
    rw [find_zero, find_zero]
    rfl
  · rw [find_nonzero hwfT hk0, find_nonzero wf hk0, hbuf', hcap', hlook k' hk0,
      if_neg hk']

/-- When `findLoc` misses, `emplace` inserts: the result table is well
formed, reports `inserted = true`, holds the key at the returned slot with
mapped bytes as the zero-storage caveat dictates (stale for the zero slot,
uninitialized for a main bucket), and leaves every other key's lookup
unchanged. -/
theorem emplace_fresh {m : HashMapTable M} {k : Nat} (wf : WF m)
    (h : m.findLoc k = none) :
    ∃ m' loc, m.emplace k = (m', loc, true) ∧ WF m' ∧
      m'.findLoc k = some loc ∧
      m'.readLoc loc = (if k = 0 then m.zero_cell.value.second else none) ∧
      (∀ k', k' ≠ k → m'.find k' = m.find k') ∧
      m'.hash = m.hash := by
  by_cases hk : k = 0
  · subst hk
    rw [findLoc] at h
    simp only [if_pos rfl] at h
    cases hz : m.has_zero
    · refine ⟨{ m with has_zero := true, zero_cell := ⟨⟨0, m.zero_cell.value.second⟩⟩ }, .zeroSlot, ?_, ?_, ?_, ?_, ?_, rfl⟩
      · rw [emplace]
        simp [hz]
      · exact ⟨wf.bufwf, wf.count, wf.bound, rfl⟩
      · rw [findLoc]
        simp
      · simp [readLoc]
      · intro k' hk'
        exact find_congr_buf (by rfl) (by rfl) (by rfl) hk'
    · rw [hz] at h
      simp at h
  · rw [findLoc, if_neg hk] at h
    have habs : ∀ j, j < m.capacity → (m.buf j).value.first ≠ k := by
      intro j hj hjk
      have hloop := probe_found wf.bufwf hj hjk hk
      have hloop' : probeLoop m.buf m.capacity k (slotFor m.hash m.capacity k)
          m.capacity = some (j, true) := by
        simp only [slotFor]
        exact hloop
      rw [hloop'] at h
      simp at h
    obtain ⟨i0, hi0, hie0, hpath0, hloop0⟩ :=
      probe_absent wf.bufwf (wf_room wf) hk habs
    have hloop0' : probeLoop m.buf m.capacity k (slotFor m.hash m.capacity k)
        m.capacity = some (i0, false) := by
      simp only [slotFor]
      exact hloop0
    by_cases hover : m.m_size + 1 > m.capacity / 2
    · -- resize path
      obtain ⟨wf1, hlook1, hhash1, hsize1, hzero1, hzc1, hslack1⟩ := resize_spec wf
      have habs1 : ∀ j, j < (resize m).capacity → ((resize m).buf j).value.first ≠ k := by
        intro j hj hjk
        have := lookupCell_eq_some wf1.bufwf hj hjk hk
        rw [hlook1 k hk, lookupCell_eq_none habs] at this
        cases this
      have hbound1 : (resize m).m_size + 1 ≤ (resize m).capacity / 2 := by
        rw [hsize1]
        exact hslack1
      obtain ⟨i, hi, hloop, hwfT, hfindLoc, hread, hpres⟩ :=
        insertAt_spec wf1 hk habs1 hbound1
      refine ⟨(resize m).insertAt k i, .bufSlot i, ?_, hwfT, hfindLoc,
        by rw [hread, if_neg hk], ?_, ?_⟩
      · simp [emplace, hk, hloop0', hover, hloop]
      · intro k' hk'
        rw [hpres k' hk', resize_find wf k']
      · have : ((resize m).insertAt k i).hash = (resize m).hash := rfl
        rw [this, hhash1]
    · -- direct insert
      have hbound : m.m_size + 1 ≤ m.capacity / 2 := by omega
      obtain ⟨i, hi, hloop, hwfT, hfindLoc, hread, hpres⟩ :=
        insertAt_spec wf hk habs hbound
      have hii : i = i0 := by
        rw [hloop0'] at hloop
        cases hloop
        rfl
      subst hii
      refine ⟨m.insertAt k i, .bufSlot i, ?_, hwfT, hfindLoc,
        by rw [hread, if_neg hk], hpres, rfl⟩
      simp [emplace, hk, hloop0', hover]

/-- The bucket-array invariant only depends on the stored keys. -/
theorem bufWF_congr {buf buf' : Nat → HashMapCell Nat M} {cap : Nat} {hf : Nat → Nat}
    (h : ∀ j, (buf' j).value.first = (buf j).value.first) (wf : BufWF buf cap hf) :
    BufWF buf' cap hf := by
  refine ⟨wf.cap_pos, ?_, ?_⟩
  · intro j hj hocc
    rw [h j] at hocc ⊢
    obtain ⟨d, hd, hjd, hpre⟩ := wf.path j hj hocc
    refine ⟨d, hd, hjd, ?_⟩
    intro t ht
    rw [h]
    exact hpre t ht
  · intro a b ha hb hocc heq
    rw [h a] at hocc heq
    rw [h b] at heq
    exact wf.dist a b ha hb hocc heq

/-- Mapped-component writes leave every key, counter and flag alone. -/
theorem writeLoc_firsts (m : HashMapTable M) (loc : Loc) (v : Option M) :
    (∀ j, ((m.writeLoc loc v).buf j).value.first = (m.buf j).value.first) ∧
    (m.writeLoc loc v).zero_cell.value.first = m.zero_cell.value.first ∧
    (m.writeLoc loc v).capacity = m.capacity ∧ (m.writeLoc loc v).hash = m.hash ∧
    (m.writeLoc loc v).has_zero = m.has_zero ∧ (m.writeLoc loc v).m_size = m.m_size := by
  cases loc with
  | zeroSlot => exact ⟨fun j => rfl, rfl, rfl, rfl, rfl, rfl⟩
  | bufSlot i =>
    refine ⟨?_, rfl, rfl, rfl, rfl, rfl⟩
    intro j
    by_cases hj : j = i
    · subst hj
      simp [writeLoc, updateBuf]
    · simp [writeLoc, updateBuf, hj]

theorem findLoc_writeLoc (m : HashMapTable M) (loc : Loc) (v : Option M) (k : Nat) :
    (m.writeLoc loc v).findLoc k = m.findLoc k := by
  obtain ⟨hfst, hzf, hcap, hhash, hz, _⟩ := writeLoc_firsts m loc v
  rw [findLoc, findLoc, hcap, hhash, hz, probeLoop_congr hfst]

theorem wf_writeLoc {m : HashMapTable M} (wf : WF m) (loc : Loc) (v : Option M) :
    WF (m.writeLoc loc v) := by
  obtain ⟨hfst, hzf, hcap, hhash, hz, hms⟩ := writeLoc_firsts m loc v
  refine ⟨?_, ?_, ?_, ?_⟩
  · rw [hcap, hhash]
    exact bufWF_congr hfst wf.bufwf
  · rw [hcap, hms, ← wf.count, occCount, occCount]
    apply countP_agree
    intro j hj
    rw [hfst j]
  · rw [hms, hcap]
    exact wf.bound
  · rw [hzf]
    exact wf.zkey

theorem readLoc_writeLoc_same (m : HashMapTable M) (loc : Loc) (v : Option M) :
    (m.writeLoc loc v).readLoc loc = v := by
  cases loc with
  | zeroSlot => rfl
  | bufSlot i => simp [writeLoc, readLoc, updateBuf]

theorem readLoc_writeLoc_ne (m : HashMapTable M) {loc loc' : Loc} (v : Option M)
    (h : loc' ≠ loc) : (m.writeLoc loc v).readLoc loc' = m.readLoc loc' := by
  cases loc with
  | zeroSlot =>
    cases loc' with
    | zeroSlot => exact absurd rfl h
    | bufSlot j => rfl
  | bufSlot i =>
    cases loc' with
    | zeroSlot => rfl
    | bufSlot j =>
      have hji : j ≠ i := fun hcon => h (by rw [hcon])
      simp [writeLoc, readLoc, updateBuf, hji]

/-- A probe that reports `found` points at a bucket holding the key. -/
theorem probeLoop_found_first {buf : Nat → HashMapCell Nat M} {cap k : Nat} :
    ∀ fuel pos i, probeLoop buf cap k pos fuel = some (i, true) →
    (buf i).value.first = k := by
  intro fuel
  induction fuel with
  | zero => intro pos i h; cases h
  | succ n ih =>
    intro pos i h
    rw [probeLoop] at h
    by_cases h1 : (buf (pos % cap)).value.first = k
    · rw [if_pos h1] at h
      cases h
      exact h1
    · rw [if_neg h1] at h
      by_cases h2 : (buf (pos % cap)).value.first = 0
      · rw [if_pos h2] at h
        cases h
      · rw [if_neg h2] at h
        exact ih (pos + 1) i h

theorem findLoc_first {m : HashMapTable M} {k i : Nat} (hk : k ≠ 0)
    (h : m.findLoc k = some (.bufSlot i)) : (m.buf i).value.first = k := by
  rw [findLoc, if_neg hk] at h
  cases hres : probeLoop m.buf m.capacity k (slotFor m.hash m.capacity k) m.capacity with
  | none =>
    rw [hres] at h
    cases h
  | some ib =>
    obtain ⟨i0, b⟩ := ib
    cases b
    · rw [hres] at h
      cases h
    · rw [hres] at h
      have hii : i0 = i := by
        cases h
        rfl
      subst hii
      exact probeLoop_found_first _ _ _ hres

theorem findLoc_zero_shape {m : HashMapTable M} {loc : Loc}
    (h : m.findLoc 0 = some loc) : loc = .zeroSlot := by
  rw [findLoc] at h
  simp only [if_pos rfl] at h
  cases hz : m.has_zero
  · rw [hz] at h
    simp at h
  · rw [hz] at h
    simp at h
    exact h.symm

/-- Distinct present keys live in distinct slots. -/
theorem findLoc_disjoint {m : HashMapTable M} {k k' : Nat} {loc loc' : Loc}
    (h : m.findLoc k = some loc) (h' : m.findLoc k' = some loc') (hkk : k' ≠ k) :
    loc' ≠ loc := by
  by_cases hk : k = 0
  · subst hk
    rw [findLoc_zero_shape h]
    rcases findLoc_nonzero_shape (m := m) hkk with hn | ⟨i, hi⟩
    · rw [hn] at h'
      cases h'
    · rw [hi] at h'
      cases h'
      intro hcon
      cases hcon
  · by_cases hk' : k' = 0
    · subst hk'
      rw [findLoc_zero_shape h']
      rcases findLoc_nonzero_shape (m := m) hk with hn | ⟨i, hi⟩
      · rw [hn] at h
        cases h
      · rw [hi] at h
        cases h
        intro hcon
        cases hcon
    · rcases findLoc_nonzero_shape (m := m) hk with hn | ⟨i, hi⟩
      · rw [hn] at h
        cases h
      · rcases findLoc_nonzero_shape (m := m) hk' with hn' | ⟨i', hi'⟩
        · rw [hn'] at h'
          cases h'
        · rw [hi] at h
          rw [hi'] at h'
          cases h
          cases h'
          have hfi := findLoc_first hk hi
          have hfi' := findLoc_first hk' hi'
          intro hcon
          cases hcon
          exact hkk (hfi'.symm.trans hfi)

theorem find_writeLoc_same {m : HashMapTable M} {k : Nat} {loc : Loc}
    (h : m.findLoc k = some loc) (v : Option M) :
    (m.writeLoc loc v).find k = some v := by
  rw [find, findLoc_writeLoc, h, Option.map_some', readLoc_writeLoc_same]

theorem find_writeLoc_other {m : HashMapTable M} {k k' : Nat} {loc : Loc}
    (h : m.findLoc k = some loc) (hkk : k' ≠ k) (v : Option M) :
    (m.writeLoc loc v).find k' = m.find k' := by
  rw [find, find, findLoc_writeLoc]
  cases hres : m.findLoc k' with
  | none => rfl
  | some loc' =>
    rw [Option.map_some', Option.map_some',
      readLoc_writeLoc_ne m v (findLoc_disjoint h hres hkk)]

/-- Specification of `operator[]` on a key the table already holds: nothing
changes and no insertion is reported. -/
theorem indexOp_found {m : HashMapTable M} {k : Nat} {loc : Loc} (dflt : M)
    (h : m.findLoc k = some loc) : indexOp dflt m k = (m, loc, false) := by
  rw [indexOp, emplace_found h]
  simp

/-- Specification of `operator[]` on a missing key: it is inserted, reported
as inserted, and its mapped slot is default-constructed; no other key's
lookup changes. -/
theorem indexOp_fresh {m : HashMapTable M} {k : Nat} (dflt : M) (wf : WF m)
    (h : m.findLoc k = none) :
    ∃ m2 loc, indexOp dflt m k = (m2, loc, true) ∧ WF m2 ∧
      m2.findLoc k = some loc ∧ m2.readLoc loc = some dflt ∧
      (∀ k', k' ≠ k → m2.find k' = m.find k') := by
  obtain ⟨m', loc, hemp, hwf', hfind', hread', hpres', hhash'⟩ := emplace_fresh wf h
  refine ⟨m'.writeLoc loc (some dflt), loc, ?_, wf_writeLoc hwf' _ _, ?_, ?_, ?_⟩
  · rw [indexOp, hemp]
    simp
  · rw [findLoc_writeLoc, hfind']
  · rw [readLoc_writeLoc_same]
  · intro k' hk'
    rw [find_writeLoc_other hfind' hk', hpres' k' hk']

/-- Specification of the caller pattern `map[k] = v`. -/
theorem setVal_spec {m : HashMapTable M} (dflt : M) (k : Nat) (v : M) (wf : WF m) :
    WF (setVal dflt m k v) ∧
    ∀ k', (setVal dflt m k v).find k' =
      if k' = k then some (some v) else m.find k' := by
  cases hres : m.findLoc k with
  | some loc =>
    have hset : setVal dflt m k v = m.writeLoc loc (some v) := by
      rw [setVal, indexOp_found dflt hres]
    rw [hset]
    refine ⟨wf_writeLoc wf _ _, ?_⟩
    intro k'
    by_cases hkk : k' = k
    · subst hkk
      rw [if_pos rfl, find_writeLoc_same hres]
    · rw [if_neg hkk, find_writeLoc_other hres hkk]
  | none =>
    obtain ⟨m2, loc, hidx, hwf2, hfind2, hread2, hpres2⟩ := indexOp_fresh dflt wf hres
    have hset : setVal dflt m k v = m2.writeLoc loc (some v) := by
      rw [setVal, hidx]
    rw [hset]
    refine ⟨wf_writeLoc hwf2 _ _, ?_⟩
    intro k'
    by_cases hkk : k' = k
    · subst hkk
      rw [if_pos rfl, find_writeLoc_same hfind2]
    · rw [if_neg hkk, find_writeLoc_other hfind2 hkk, hpres2 k' hkk]

/-- A freshly constructed table is well formed. -/
theorem wf_empty (hf : Nat → Nat) (L : Nat) : WF (empty hf L : HashMapTable M) := by
  refine ⟨⟨pow_pos (by norm_num) _, ?_, ?_⟩, ?_, ?_, rfl⟩
  · intro j hj hocc
    exact absurd rfl hocc
  · intro a b ha hb hocc _
    exact absurd rfl hocc
  · rw [occCount, List.countP_eq_zero.mpr]
    · rfl
    · intro j hj
      simp [empty, emptyCell]
  · exact Nat.zero_le _

/-- A freshly constructed table holds no key. -/
theorem find_empty (hf : Nat → Nat) (L : Nat) (k : Nat) :
    (empty hf L : HashMapTable M).find k = none := by
  by_cases hk : k = 0
  · subst hk
    rw [find_zero]
    rfl
  · rw [find_nonzero (wf_empty hf L) hk, lookupCell_eq_none, Option.map_none']
    intro j hj h
    exact hk h.symm

theorem wf_setAll {M' : Type} (dflt : M') :
    ∀ ps (m : HashMapTable M'), WF m → WF (setAll dflt m ps) := by
  intro ps
  induction ps with
  | nil => intro m wf; exact wf
  | cons p ps ih =>
    intro m wf
    exact ih (setVal dflt m p.1 p.2) (setVal_spec dflt p.1 p.2 wf).1

theorem find_setAll_not_mem {M' : Type} (dflt : M') {k : Nat} :
    ∀ ps (m : HashMapTable M'), WF m → k ∉ ps.map Prod.fst →
    (setAll dflt m ps).find k = m.find k := by
  intro ps
  induction ps with
  | nil => intro m _ _; rfl
  | cons p ps ih =>
    intro m wf hmem
    have hk1 : k ≠ p.1 := by
      intro h
      apply hmem
      rw [List.map_cons, h]
      exact List.mem_cons_self _ _
    have hk2 : k ∉ ps.map Prod.fst := by
      intro h
      exact hmem (by rw [List.map_cons]; exact List.mem_cons_of_mem _ h)
    have hstep : setAll dflt m (p :: ps) = setAll dflt (setVal dflt m p.1 p.2) ps := rfl
    rw [hstep, ih (setVal dflt m p.1 p.2) (setVal_spec dflt p.1 p.2 wf).1 hk2,
      (setVal_spec dflt p.1 p.2 wf).2 k, if_neg hk1]

theorem find_setAll_mem {M' : Type} (dflt : M') :
    ∀ ps (m : HashMapTable M'), WF m → (ps.map Prod.fst).Nodup →
    ∀ kv ∈ ps, (setAll dflt m ps).find kv.1 = some (some kv.2) := by
  intro ps
  induction ps with
  | nil => intro m _ _ kv h; cases h
  | cons p ps ih =>
    intro m wf hnd kv hmem
    have hstep : setAll dflt m (p :: ps) = setAll dflt (setVal dflt m p.1 p.2) ps := rfl
    have hwf1 : WF (setVal dflt m p.1 p.2) := (setVal_spec dflt p.1 p.2 wf).1
    rcases List.mem_cons.mp hmem with h | h
    · subst h
      have hnotmem : kv.1 ∉ ps.map Prod.fst := by
        rw [List.map_cons] at hnd
        exact (List.nodup_cons.mp hnd).1
      rw [hstep, find_setAll_not_mem dflt ps _ hwf1 hnotmem,
        (setVal_spec dflt kv.1 kv.2 wf).2 kv.1, if_pos rfl]
    · rw [hstep]
      exact ih _ hwf1 (by rw [List.map_cons] at hnd; exact (List.nodup_cons.mp hnd).2) kv h

theorem find_setAll_ne_none {M' : Type} (dflt : M') {k : Nat} :
    ∀ ps (m : HashMapTable M'), WF m →
    ((setAll dflt m ps).find k ≠ none ↔ (k ∈ ps.map Prod.fst ∨ m.find k ≠ none)) := by
  intro ps
  induction ps with
  | nil =>
    intro m _
    simp [setAll]
  | cons p ps ih =>
    intro m wf
    have hstep : setAll dflt m (p :: ps) = setAll dflt (setVal dflt m p.1 p.2) ps := rfl
    have hwf1 : WF (setVal dflt m p.1 p.2) := (setVal_spec dflt p.1 p.2 wf).1
    rw [hstep, ih _ hwf1, (setVal_spec dflt p.1 p.2 wf).2 k, List.map_cons]
    by_cases hk1 : k = p.1
    · subst hk1
      simp
    · rw [if_neg hk1]
      constructor
      · intro h
        rcases h with h | h
        · exact Or.inl (List.mem_cons_of_mem _ h)
        · exact Or.inr h
      · intro h
        rcases h with h | h
        · rcases List.mem_cons.mp h with h' | h'
          · exact absurd h' hk1
          · exact Or.inl h'
        · exact Or.inr h

theorem find_some_findLoc {m : HashMapTable M} {k : Nat} {w : Option M}
    (h : m.find k = some w) :
    ∃ loc, m.findLoc k = some loc ∧ m.readLoc loc = w := by
  rw [find] at h
  cases hres : m.findLoc k with
  | none =>
    rw [hres] at h
    cases h
  | some loc =>
    rw [hres, Option.map_some'] at h
    exact ⟨loc, rfl, by cases h; rfl⟩

theorem find_none_findLoc {m : HashMapTable M} {k : Nat} (h : m.find k = none) :
    m.findLoc k = none := by
  rw [find] at h
  cases hres : m.findLoc k with
  | none => rfl
  | some loc =>
    rw [hres] at h
    cases h

/-- Idempotence of `operator[]`: a second indexing of the same key changes
nothing, returns the same slot, and reports no insertion. -/
theorem indexOp_idem {m : HashMapTable M} (dflt : M) (k : Nat) (wf : WF m) :
    indexOp dflt (indexOp dflt m k).1 k =
      ((indexOp dflt m k).1, (indexOp dflt m k).2.1, false) := by
  cases hres : m.findLoc k with
  | some loc =>
    rw [indexOp_found dflt hres]
    exact indexOp_found dflt hres
  | none =>
    obtain ⟨m2, loc, hidx, hwf2, hfind2, hread2, hpres2⟩ := indexOp_fresh dflt wf hres
    rw [hidx]
    exact indexOp_found dflt hfind2

theorem bumpN_step (m : HashMapTable Nat) (k n : Nat) :
    bumpN m k (n + 1) =
      ((bumpN ((indexOp 0 m k).1.writeLoc (indexOp 0 m k).2.1
          (((indexOp 0 m k).1.readLoc (indexOp 0 m k).2.1).map (· + 1))) k n).1,
       (bumpN ((indexOp 0 m k).1.writeLoc (indexOp 0 m k).2.1
          (((indexOp 0 m k).1.readLoc (indexOp 0 m k).2.1).map (· + 1))) k n).2 +
        (if (indexOp 0 m k).2.2 then 1 else 0)) := rfl

/-- Bumping a key that is present with value `v` a further `n` times yields
`v + n` with no insertion events. -/
theorem bumpN_present :
    ∀ n (m : HashMapTable Nat) (k v : Nat), WF m → m.find k = some (some v) →
    WF (bumpN m k n).1 ∧ (bumpN m k n).1.find k = some (some (v + n)) ∧
      (bumpN m k n).2 = 0 := by
  intro n
  induction n with
  | zero =>
    intro m k v wf h
    refine ⟨wf, ?_, rfl⟩
    simp only [bumpN]
    simpa using h
  | succ n ih =>
    intro m k v wf h
    obtain ⟨loc, hloc, hread⟩ := find_some_findLoc h
    have hidx : indexOp 0 m k = (m, loc, false) := indexOp_found 0 hloc
    have hm' : ((indexOp 0 m k).1.writeLoc (indexOp 0 m k).2.1
        (((indexOp 0 m k).1.readLoc (indexOp 0 m k).2.1).map (· + 1))) =
        m.writeLoc loc (some (v + 1)) := by
      rw [hidx, hread]
      rfl
    rw [bumpN_step, hm', hidx]
    have hwf' : WF (m.writeLoc loc (some (v + 1))) := wf_writeLoc wf _ _
    have hfind' : (m.writeLoc loc (some (v + 1))).find k = some (some (v + 1)) :=
      find_writeLoc_same hloc _
    obtain ⟨hwfn, hfindn, hcntn⟩ := ih _ k (v + 1) hwf' hfind'
    refine ⟨hwfn, ?_, by rw [hcntn]; simp⟩
    rw [hfindn]
    have : v + 1 + n = v + (n + 1) := by omega
    rw [this]

/-- Bumping an absent key `n ≥ 1` times yields `n` with exactly one
insertion event. -/
theorem bumpN_fresh :
    ∀ n, 1 ≤ n → ∀ (m : HashMapTable Nat) (k : Nat), WF m → m.find k = none →
    WF (bumpN m k n).1 ∧ (bumpN m k n).1.find k = some (some n) ∧
      (bumpN m k n).2 = 1 := by
  intro n hn m k wf h
  obtain ⟨n', rfl⟩ : ∃ n', n = n' + 1 := ⟨n - 1, by omega⟩
  obtain ⟨m2, loc, hidx, hwf2, hfind2, hread2, hpres2⟩ :=
    indexOp_fresh 0 wf (find_none_findLoc h)
  have hm' : ((indexOp 0 m k).1.writeLoc (indexOp 0 m k).2.1
      (((indexOp 0 m k).1.readLoc (indexOp 0 m k).2.1).map (· + 1))) =
      m2.writeLoc loc (some 1) := by
    rw [hidx, hread2]
    rfl
  rw [bumpN_step, hm', hidx]
  have hwf' : WF (m2.writeLoc loc (some 1)) := wf_writeLoc hwf2 _ _
  have hfind' : (m2.writeLoc loc (some 1)).find k = some (some 1) :=
    find_writeLoc_same hfind2 _
  obtain ⟨hwfn, hfindn, hcntn⟩ := bumpN_present n' _ k 1 hwf' hfind'
  refine ⟨hwfn, ?_, by rw [hcntn]; simp⟩
  rw [hfindn]
  have : 1 + n' = n' + 1 := by omega
  rw [this]

/-- Iteration produces exactly the present key/slot-content pairs. -/
theorem iter_pairs {m : HashMapTable M} (wf : WF m) (k : Nat) (w : Option M) :
    (k, w) ∈ m.iterList ↔ m.find k = some w := by
  rw [iterList, List.mem_append]
  by_cases hk : k = 0
  · subst hk
    rw [find_zero]
    cases hz : m.has_zero
    · simp only [hz, Bool.false_eq_true, if_false]
      constructor
      · intro h
        rcases h with h | h
        · cases h
        · obtain ⟨j, hj, hf⟩ := List.mem_filterMap.mp h
          by_cases h0 : (m.buf j).value.first = 0
          · rw [if_pos h0] at hf
            cases hf
          · rw [if_neg h0] at hf
            have h1 := congrArg Prod.fst (Option.some.inj hf)
            exact absurd h1 h0
      · intro h
        cases h
    · simp only [hz, if_true]
      constructor
      · intro h
        rcases h with h | h
        · have h' := List.mem_singleton.mp h
          have hw : w = m.zero_cell.value.second := congrArg Prod.snd h'
          rw [hw]
        · obtain ⟨j, hj, hf⟩ := List.mem_filterMap.mp h
          by_cases h0 : (m.buf j).value.first = 0
          · rw [if_pos h0] at hf
            cases hf
          · rw [if_neg h0] at hf
            have h1 := congrArg Prod.fst (Option.some.inj hf)
            exact absurd h1 h0
      · intro h
        cases h
        left
        simp [wf.zkey]
  · constructor
    · intro h
      rcases h with h | h
      · cases hz : m.has_zero
        · rw [hz] at h
          simp at h
        · rw [hz] at h
          simp only [if_true] at h
          have h' := List.mem_singleton.mp h
          have hk0 : k = m.zero_cell.value.first := congrArg Prod.fst h'
          rw [wf.zkey] at hk0
          exact absurd hk0 hk
      · obtain ⟨j, hj, hf⟩ := List.mem_filterMap.mp h
        by_cases h0 : (m.buf j).value.first = 0
        · rw [if_pos h0] at hf
          cases hf
        · rw [if_neg h0] at hf
          cases hf
          rw [find_nonzero wf hk,
            lookupCell_eq_some wf.bufwf (List.mem_range.mp hj) rfl hk]
          rfl
    · intro h
      right
      rw [find_nonzero wf hk] at h
      cases hres : lookupCell m.buf m.capacity k with
      | none =>
        rw [hres] at h
        cases h
      | some c =>
        rw [hres, Option.map_some'] at h
        rw [lookupCell] at hres
        cases hfind : (List.range m.capacity).find?
            (fun j => decide ((m.buf j).value.first = k)) with
        | none =>
          rw [hfind] at hres
          cases hres
        | some j =>
          rw [hfind, Option.map_some'] at hres
          have hjk : (m.buf j).value.first = k := by
            have := List.find?_some hfind
            simpa using this
          apply List.mem_filterMap.mpr
          refine ⟨j, List.mem_of_find?_eq_some hfind, ?_⟩
          rw [if_neg (by rw [hjk]; exact hk), hjk]
          cases h
          cases hres
          rfl

/-- The keys of the occupied main-array buckets are pairwise distinct. -/
theorem bufPairs_keys_nodup {m : HashMapTable M} (wf : WF m) :
    ∀ l : List Nat, l.Nodup → (∀ j ∈ l, j < m.capacity) →
    ((l.filterMap (fun j => if (m.buf j).value.first = 0 then none
        else some ((m.buf j).value.first, (m.buf j).value.second))).map Prod.fst).Nodup := by
  intro l
  induction l with
  | nil => intro _ _; exact List.nodup_nil
  | cons j l ih =>
    intro hnd hlt
    by_cases h0 : (m.buf j).value.first = 0
    · rw [List.filterMap_cons_none (by simp [h0])]
      exact ih (List.nodup_cons.mp hnd).2 (fun a ha => hlt a (List.mem_cons_of_mem j ha))
    · have hstep : (List.filterMap
          (fun j => if (m.buf j).value.first = 0 then none
            else some ((m.buf j).value.first, (m.buf j).value.second)) (j :: l)) =
          ((m.buf j).value.first, (m.buf j).value.second) ::
          List.filterMap (fun j => if (m.buf j).value.first = 0 then none
            else some ((m.buf j).value.first, (m.buf j).value.second)) l := by
        rw [List.filterMap_cons]
        simp [h0]
      rw [hstep, List.map_cons]
      apply List.nodup_cons.mpr
      refine ⟨?_, ih (List.nodup_cons.mp hnd).2
        (fun a ha => hlt a (List.mem_cons_of_mem j ha))⟩
      intro hmem
      obtain ⟨pair, hpair, hfst⟩ := List.mem_map.mp hmem
      obtain ⟨j', hj', hf'⟩ := List.mem_filterMap.mp hpair
      by_cases h0' : (m.buf j').value.first = 0
      · rw [if_pos h0'] at hf'
        cases hf'
      · rw [if_neg h0'] at hf'
        have hkey : (m.buf j').value.first = (m.buf j).value.first := by
          have hp : (m.buf j').value.first = pair.1 :=
            congrArg Prod.fst (Option.some.inj hf')
          exact hp.trans hfst
        have hjj : j' = j := wf.bufwf.dist j' j
          (hlt j' (List.mem_cons_of_mem j hj'))
          (hlt j (List.mem_cons_self j l)) h0' hkey
        exact (List.nodup_cons.mp hnd).1 (hjj ▸ hj')

/-- The keys produced by a full iteration are pairwise distinct. -/
theorem iter_keys_nodup {m : HashMapTable M} (wf : WF m) :
    (m.iterList.map Prod.fst).Nodup := by
  rw [iterList, List.map_append]
  apply List.Nodup.append
  · cases hz : m.has_zero <;> simp
  · exact bufPairs_keys_nodup wf (List.range m.capacity) (List.nodup_range _)
      (fun j hj => List.mem_range.mp hj)
  · intro a ha hb
    cases hz : m.has_zero
    · rw [hz] at ha
      simp at ha
    · rw [hz] at ha
      simp at ha
      rw [wf.zkey] at ha
      obtain ⟨pair, hpair, hfst⟩ := List.mem_map.mp hb
      obtain ⟨j', hj', hf'⟩ := List.mem_filterMap.mp hpair
      by_cases h0' : (m.buf j').value.first = 0
      · rw [if_pos h0'] at hf'
        cases hf'
      · rw [if_neg h0'] at hf'
        apply h0'
        have hp : (m.buf j').value.first = pair.1 :=
          congrArg Prod.fst (Option.some.inj hf')
        rw [hp, hfst, ← ha]

/-- `for_each_mapped` visits exactly the mapped components of the iterated
slots, in iteration order. -/
theorem for_each_mapped_eq {σ : Type} (m : HashMapTable M) (f : σ → Option M → σ)
    (s : σ) :
    m.for_each_mapped f s = (m.iterList.map Prod.snd).foldl f s := by
  rw [for_each_mapped, List.foldl_map]

end HashMapTable

/-! ### Claim theorems -/

open HashMapTable

/-- C1: for every sequence of distinct keys, inserting each key with an
associated value through `operator[]` and then finding each key returns the
value that was last set for that key. -/
theorem claim_C1_round_trip (M' : Type) (hf : Nat → Nat) (L : Nat) (dflt : M')
    (ps : List (Nat × M')) (hnd : (ps.map Prod.fst).Nodup) :
    ∀ kv ∈ ps, (setAll dflt (empty hf L) ps).find kv.1 = some (some kv.2) :=
  find_setAll_mem dflt ps (empty hf L) (wf_empty hf L) hnd

/-- Witness for C1 at the concrete insertion sequence
`[(0,10), (5,20), (7,30), (2,40)]` (which forces two resizes from the
initial capacity 2). -/
theorem claim_C1_witness :
    (([(0, 10), (5, 20), (7, 30), (2, 40)] : List (Nat × Nat)).map Prod.fst).Nodup ∧
    (setAll 0 (empty id 1) [(0, 10), (5, 20), (7, 30), (2, 40)]).find 5 =
      some (some 20) :=
  ⟨by decide, claim_C1_round_trip Nat id 1 0 [(0, 10), (5, 20), (7, 30), (2, 40)]
    (by decide) (5, 20) (by decide)⟩

/-- C2: `operator[]` performs `emplace`; when the key was newly inserted the
mapped slot is default-constructed before the reference is returned, and
when the key already existed the table is unchanged and the reference holds
the existing mapped value. -/
theorem claim_C2_index_semantics {M' : Type} (dflt : M') (k : Nat)
    {m : HashMapTable M'} (wf : WF m) :
    (indexOp dflt m k).2 = (m.emplace k).2 ∧
    ((indexOp dflt m k).2.2 = true →
      (indexOp dflt m k).1.readLoc (indexOp dflt m k).2.1 = some dflt) ∧
    ((indexOp dflt m k).2.2 = false →
      (indexOp dflt m k).1 = m ∧
      some ((indexOp dflt m k).1.readLoc (indexOp dflt m k).2.1) = m.find k) := by
  refine ⟨rfl, ?_, ?_⟩
  · cases hres : m.findLoc k with
    | some loc =>
      rw [indexOp_found dflt hres]
      intro h
      simp at h
    | none =>
      obtain ⟨m2, loc, hidx, hwf2, hfind2, hread2, hpres2⟩ := indexOp_fresh dflt wf hres
      rw [hidx]
      intro _
      exact hread2
  · cases hres : m.findLoc k with
    | some loc =>
      rw [indexOp_found dflt hres]
      intro _
      refine ⟨rfl, ?_⟩
      rw [find, hres, Option.map_some']
    | none =>
      obtain ⟨m2, loc, hidx, hwf2, hfind2, hread2, hpres2⟩ := indexOp_fresh dflt wf hres
      rw [hidx]
      intro h
      simp at h

/-- Witness for C2 on an empty table: indexing key 5 inserts it and
default-constructs its mapped slot. -/
theorem claim_C2_witness :
    WF (empty id 1 : HashMapTable Nat) ∧
    ((indexOp 9 (empty id 1 : HashMapTable Nat) 5).2.2 = true →
      (indexOp 9 (empty id 1 : HashMapTable Nat) 5).1.readLoc
        (indexOp 9 (empty id 1 : HashMapTable Nat) 5).2.1 = some 9) :=
  ⟨wf_empty id 1, (claim_C2_index_semantics 9 5 (wf_empty id 1)).2.1⟩

/-- C3: repeated indexing of the same key with no intervening write returns
the same slot each time, leaves the table unchanged, reports no further
insertion (so default construction runs only on the first call); and `n`
repetitions of `map[k] += 1` on an initially empty integer-valued map give
final value `n` with exactly one insertion event. -/
theorem claim_C3_idempotent_indexing :
    (∀ (M' : Type) (dflt : M') (m : HashMapTable M') (k : Nat), WF m →
      indexOp dflt (indexOp dflt m k).1 k =
        ((indexOp dflt m k).1, (indexOp dflt m k).2.1, false)) ∧
    (∀ (m : HashMapTable Nat) (k n : Nat), WF m → m.find k = none → 1 ≤ n →
      (bumpN m k n).1.find k = some (some n) ∧ (bumpN m k n).2 = 1) := by
  constructor
  · intro M' dflt m k wf
    exact indexOp_idem dflt k wf
  · intro m k n wf h hn
    obtain ⟨_, h2, h3⟩ := bumpN_fresh n hn m k wf h
    exact ⟨h2, h3⟩

/-- Witness for C3: 100 repetitions of `map[42] += 1` on an empty map give
value 100 and exactly one insertion event. -/
theorem claim_C3_witness :
    WF (empty id 3 : HashMapTable Nat) ∧
    (empty id 3 : HashMapTable Nat).find 42 = none ∧ (1 ≤ 100) ∧
    ((bumpN (empty id 3) 42 100).1.find 42 = some (some 100) ∧
      (bumpN (empty id 3) 42 100).2 = 1) :=
  ⟨wf_empty id 3, find_empty id 3 42, by decide,
    claim_C3_idempotent_indexing.2 (empty id 3) 42 100 (wf_empty id 3)
      (find_empty id 3 42) (by decide)⟩

/-- C4: the reserved zero key — stored in its dedicated slot — behaves like
any other key: its value is stored and found correctly, other keys are
untouched, iteration lists it with its value exactly once, and the map cell
declares `need_zero_value_storage = true`. -/
theorem claim_C4_zero_key {M' : Type} (dflt v : M') {m : HashMapTable M'}
    (wf : WF m) :
    HashMapCell.need_zero_value_storage = true ∧
    (setVal dflt m 0 v).find 0 = some (some v) ∧
    (∀ k', k' ≠ 0 → (setVal dflt m 0 v).find k' = m.find k') ∧
    (0, some v) ∈ (setVal dflt m 0 v).iterList ∧
    ((setVal dflt m 0 v).iterList.map Prod.fst).count 0 = 1 := by
  obtain ⟨hwf', hfind'⟩ := setVal_spec dflt 0 v wf
  have hfz : (setVal dflt m 0 v).find 0 = some (some v) := by
    rw [hfind' 0, if_pos rfl]
  refine ⟨rfl, hfz, ?_, ?_, ?_⟩
  · intro k' hk'
    rw [hfind' k', if_neg hk']
  · exact (iter_pairs hwf' 0 (some v)).mpr hfz
  · exact List.count_eq_one_of_mem (iter_keys_nodup hwf')
      (List.mem_map.mpr ⟨(0, some v), (iter_pairs hwf' 0 (some v)).mpr hfz, rfl⟩)

/-- Witness for C4 on an empty table with value 10 at the zero key. -/
theorem claim_C4_witness :
    WF (empty id 1 : HashMapTable Nat) ∧
    (setVal 0 (empty id 1 : HashMapTable Nat) 0 10).find 0 = some (some 10) ∧
    ((setVal 0 (empty id 1 : HashMapTable Nat) 0 10).iterList.map Prod.fst).count 0
      = 1 :=
  ⟨wf_empty id 1, (claim_C4_zero_key 0 10 (wf_empty id 1)).2.1,
    (claim_C4_zero_key 0 10 (wf_empty id 1)).2.2.2.2⟩

/-- C5: the hash-aware `key_equals` of the hash-cached cell is false whenever
the supplied hash differs from the stored one, and true exactly when both
the stored hash and the stored key match; the plain cell's overload ignores
the hash argument and tests key equality alone. -/
theorem claim_C5_key_equals {Key Mapped : Type} [DecidableEq Key]
    (c : HashMapCellWithSavedHash Key Mapped) (p : HashMapCell Key Mapped)
    (key_ : Key) (hash_ h1 h2 : Nat) :
    (c.saved_hash ≠ hash_ → c.key_equals_hash key_ hash_ = false) ∧
    (c.key_equals_hash key_ hash_ = true ↔
      c.saved_hash = hash_ ∧ c.value.first = key_) ∧
    p.key_equals_hash key_ h1 = p.key_equals_hash key_ h2 ∧
    (p.key_equals_hash key_ hash_ = true ↔ p.value.first = key_) := by
  refine ⟨?_, ?_, rfl, ?_⟩
  · intro h
    simp [HashMapCellWithSavedHash.key_equals_hash, h]
  · simp [HashMapCellWithSavedHash.key_equals_hash]
  · simp [HashMapCell.key_equals_hash]

/-- Witness for C5: a cached cell with stored hash 7 rejects supplied hash 9
even though the key matches. -/
theorem claim_C5_witness :
    ((7 : Nat) ≠ 9) ∧
    (⟨⟨3, some 4⟩, 7⟩ : HashMapCellWithSavedHash Nat Nat).key_equals_hash 3 9
      = false :=
  ⟨by decide,
    (claim_C5_key_equals ⟨⟨3, some 4⟩, 7⟩ ⟨⟨3, some 4⟩⟩ 3 9 1 2).1 (by decide)⟩

/-- C6: the plain cell's `get_hash` recomputes `hash_function(key)` and its
`set_hash` is a no-op; the hash-cached cell's `set_hash` stores the value
(leaving the pair alone) and its `get_hash` returns the stored value
independently of the hash function. -/
theorem claim_C6_hash_cache {Key Mapped : Type} (c : HashMapCell Key Mapped)
    (c' : HashMapCellWithSavedHash Key Mapped) (hash hash2 : Key → Nat)
    (hv : Nat) :
    c.set_hash hv = c ∧
    c.get_hash hash = hash c.value.first ∧
    (c'.set_hash hv).saved_hash = hv ∧
    (c'.set_hash hv).value = c'.value ∧
    (c'.set_hash hv).get_hash hash = hv ∧
    c'.get_hash hash = c'.saved_hash ∧
    c'.get_hash hash = c'.get_hash hash2 :=
  ⟨rfl, rfl, rfl, rfl, rfl, rfl, rfl⟩

/-- C7: the keys produced by a full iteration of a table built by a sequence
of inserts are exactly the keys ever inserted, each once; and
`for_each_mapped` folds the visitor over the mapped component of every
iterated slot, in iteration order. -/
theorem claim_C7_iteration_complete (M' σ : Type) (hf : Nat → Nat) (L : Nat)
    (dflt : M') (ps : List (Nat × M')) (f : σ → Option M' → σ) (s : σ) :
    ((setAll dflt (empty hf L) ps).iterList.map Prod.fst).Nodup ∧
    (∀ k, k ∈ (setAll dflt (empty hf L) ps).iterList.map Prod.fst ↔
      k ∈ ps.map Prod.fst) ∧
    (setAll dflt (empty hf L) ps).for_each_mapped f s =
      ((setAll dflt (empty hf L) ps).iterList.map Prod.snd).foldl f s := by
  have hwf : WF (setAll dflt (empty hf L) ps) := wf_setAll dflt ps _ (wf_empty hf L)
  refine ⟨iter_keys_nodup hwf, ?_, for_each_mapped_eq _ f s⟩
  intro k
  constructor
  · intro h
    obtain ⟨pair, hpair, hfst⟩ := List.mem_map.mp h
    have hp : (k, pair.2) ∈ (setAll dflt (empty hf L) ps).iterList := by
      have hpair' : (pair.1, pair.2) ∈ (setAll dflt (empty hf L) ps).iterList := hpair
      rw [hfst] at hpair'
      exact hpair'
    have hfind := (iter_pairs hwf k pair.2).mp hp
    have hne : (setAll dflt (empty hf L) ps).find k ≠ none := by
      rw [hfind]
      simp
    rw [find_setAll_ne_none dflt ps _ (wf_empty hf L)] at hne
    rcases hne with h1 | h1
    · exact h1
    · rw [find_empty] at h1
      exact absurd rfl h1
  · intro h
    have hne : (setAll dflt (empty hf L) ps).find k ≠ none := by
      rw [find_setAll_ne_none dflt ps _ (wf_empty hf L)]
      exact Or.inl h
    cases hres : (setAll dflt (empty hf L) ps).find k with
    | none => exact absurd hres hne
    | some w =>
      exact List.mem_map.mpr ⟨(k, w), (iter_pairs hwf k w).mpr hres, rfl⟩

/-- C8: the key-only cell constructor builds the pair with `NoInitTag`,
initializing the key and not the mapped component; accordingly a raw
`emplace` of a fresh nonzero key constructs only the key in the empty
bucket and leaves the mapped slot uninitialized for the caller (or the
facade) to initialize. -/
theorem claim_C8_key_only_insert {F S M' : Type} (f : F) (k : Nat)
    {m : HashMapTable M'} (wf : WF m) (hk : k ≠ 0)
    (habsent : m.find k = none) :
    (PairNoInit.ofFirst f ⟨⟩ : PairNoInit F S).first = f ∧
    (PairNoInit.ofFirst f ⟨⟩ : PairNoInit F S).second = none ∧
    (HashMapCell.ofKey k : HashMapCell Nat M').value = PairNoInit.ofFirst k ⟨⟩ ∧
    (m.emplace k).2.2 = true ∧
    (m.emplace k).1.readLoc (m.emplace k).2.1 = none := by
  obtain ⟨m', loc, hemp, hwf', hfind', hread', hpres', hhash'⟩ :=
    emplace_fresh wf (find_none_findLoc habsent)
  refine ⟨rfl, rfl, rfl, ?_, ?_⟩
  · rw [hemp]
  · rw [hemp]
    show m'.readLoc loc = none
    rw [hread', if_neg hk]

/-- Witness for C8: emplacing key 5 into an empty table reports an insertion
and leaves the mapped slot uninitialized. -/
theorem claim_C8_witness :
    WF (empty id 1 : HashMapTable Nat) ∧ (5 : Nat) ≠ 0 ∧
    (empty id 1 : HashMapTable Nat).find 5 = none ∧
    ((empty id 1 : HashMapTable Nat).emplace 5).2.2 = true ∧
    ((empty id 1 : HashMapTable Nat).emplace 5).1.readLoc
      ((empty id 1 : HashMapTable Nat).emplace 5).2.1 = none :=
  ⟨wf_empty id 1, by decide, find_empty id 1 5,
    (@claim_C8_key_only_insert Nat Nat Nat 3 5 (empty id 1) (wf_empty id 1)
      (by decide) (find_empty id 1 5)).2.2.2.1,
    (@claim_C8_key_only_insert Nat Nat Nat 3 5 (empty id 1) (wf_empty id 1)
      (by decide) (find_empty id 1 5)).2.2.2.2⟩

/-- C9: `set_mapped` assigns only the mapped (second) component of the cell
from the argument's second component; the cell's key is unchanged. -/
theorem claim_C9_set_mapped_frame {Key Mapped : Type} (c : HashMapCell Key Mapped)
    (value_ : PairNoInit Key Mapped) :
    (c.set_mapped value_).value.second = value_.second ∧
    (c.set_mapped value_).value.first = c.value.first :=
  ⟨rfl, rfl⟩

/-- C10: evaluating a match predicate with a null inverted-index iterator
returns `Status::OK()` immediately and leaves the output bitmap unchanged. -/
theorem claim_C10_null_iterator (p : MatchPredicate) (column : ColumnKind)
    (num_rows : Nat) (bitmap : Finset Nat) :
    p.evaluate column none num_rows bitmap = (Status.OK, bitmap) := rfl

end DorisVerify
